import Mathlib

/-!
Verification development for the gala interactive proofreading server
(`gala/serve.py`).  The `Solver` class there is a ZMQ-based protocol
handler that owns a region-adjacency graph (RAG), accumulates merge and
separation corrections as training examples, retrains a merge-probability
classifier, and serves fragment-to-segment lookup tables.

The RAG itself (`agglo.Rag`), the feature manager, and the classifier are
external collaborators of the file under study; where their behaviour
decides a property they are modelled from the specification, and every
such definition carries a doc comment starting with `Modelled from the
spec:`.  Everything else is a direct translation of `serve.py`.
-/

namespace Gala

/-- Label attached to merge training examples (`MERGE_LABEL = 0` in serve.py). -/
def MERGE_LABEL : Nat := 0

/-- Label attached to separation training examples (`SEPAR_LABEL = 1` in serve.py). -/
def SEPAR_LABEL : Nat := 1

/-- Modelled from the spec: the external FeatureExtractor produces a feature
vector for an ordered pair of graph nodes; the vector's contents are opaque
to the server, so we represent a feature vector by the ordered node pair it
was computed for. -/
abbrev Feature := Nat × Nat

/-- Modelled from the spec: the external Classifier is a trainable model;
`fit` stores all accumulated `(features, targets)` pairs.  Its internals are
out of scope, so we model the fitted state as the training data itself. -/
structure Classifier where
  feats : List Feature
  targs : List Nat
  deriving Repr, DecidableEq

/-- Association-list lookup used for the union-find root map. -/
def alookup : List (Nat × Nat) → Nat → Option Nat
  | [], _ => none
  | (k, v) :: rest, x => if x = k then some v else alookup rest x

/-- Apply one merge record `(a, b, n)` to a root map: everything rooted at
`a` or `b` becomes rooted at the fresh node `n`, and `a`, `b`, `n` get
entries of their own. -/
def updateRoots (acc : List (Nat × Nat)) (a b n : Nat) : List (Nat × Nat) :=
  acc.map (fun kv => (kv.1, if kv.2 = a ∨ kv.2 = b then n else kv.2))
    ++ [(a, n), (b, n), (n, n)]

/-- Root map accumulated from a chronological list of merge records. -/
def buildRoot (ms : List (Nat × Nat × Nat)) : List (Nat × Nat) :=
  ms.foldl (fun acc r => updateRoots acc r.1 r.2.1 r.2.2) []

/-- Current highest ancestor of `x` under a list of merge records
(`tree.highest_ancestor` resolution). -/
def rootAt (ms : List (Nat × Nat × Nat)) (x : Nat) : Nat :=
  (alookup (buildRoot ms) x).getD x

/-- Modelled from the spec: the external region-adjacency graph
(`agglo.Rag`).  Original fragments are the ids `0 .. nfrag - 1`; `origAdj`
is the spatial adjacency between original fragments; `merges` is the
chronological list of union-find merge records `(child0, child1, newId)`;
`boundary_body` is the background/boundary pseudo-fragment id; `exclTags`
are the `(node, exclusion id)` tags placed by relearning. -/
structure Rag where
  nfrag : Nat
  origAdj : List (Nat × Nat)
  boundary_body : Nat
  merges : List (Nat × Nat × Nat)
  nextId : Nat
  exclTags : List (Nat × Nat)
  deriving Repr, DecidableEq

/-- `tree.highest_ancestor`: resolve an id to its current segment id. -/
def Rag.highest_ancestor (rag : Rag) (x : Nat) : Nat :=
  rootAt rag.merges x

/-- Currently-live node ids of the graph, in insertion order: the ids
`0 .. nextId - 1` that are their own highest ancestor. -/
def Rag.liveNodes (rag : Rag) : List Nat :=
  (List.range rag.nextId).filter (fun x => rag.highest_ancestor x = x)

/-- Two live nodes are adjacent iff some pair of original fragments they
contain is spatially adjacent (contracted-graph edge). -/
def Rag.adjacentb (rag : Rag) (u v : Nat) : Bool :=
  decide (u ≠ v) &&
    rag.origAdj.any (fun pq =>
      decide ((rag.highest_ancestor pq.1 = u ∧ rag.highest_ancestor pq.2 = v) ∨
        (rag.highest_ancestor pq.1 = v ∧ rag.highest_ancestor pq.2 = u)))

/-- Modelled from the spec: `Rag.merge_nodes` merges its two arguments into
a fresh node (union-find semantics over merges) and returns the merged
node's id. -/
def Rag.merge_nodes (rag : Rag) (a b : Nat) : Rag × Nat :=
  let n := rag.nextId
  ({ rag with merges := rag.merges ++ [(a, b, n)], nextId := n + 1 }, n)

/-- Modelled from the spec: `Rag.separate_fragments` un-merges just enough
history (most recent first) to make the two fragments belong to different
live nodes (fuel-bounded by the history's length). -/
def sepUnmerge (f0 f1 : Nat) : Nat → List (Nat × Nat × Nat) → List (Nat × Nat × Nat)
  | 0, ms => ms
  | fuel + 1, ms =>
    if ms = [] then ms
    else if rootAt ms f0 = rootAt ms f1 then sepUnmerge f0 f1 fuel ms.dropLast
    else ms

/-- Modelled from the spec: resolves both fragments' current segments,
un-merging history until they belong to different live nodes, and returns
the updated graph with the two resulting segment ids. -/
def Rag.separate_fragments (rag : Rag) (f0 f1 : Nat) : Rag × Nat × Nat :=
  let rag1 : Rag := { rag with merges := sepUnmerge f0 f1 rag.merges.length rag.merges }
  (rag1, rag1.highest_ancestor f0, rag1.highest_ancestor f1)

/-- Modelled from the spec: the external feature manager computes a feature
vector for a node pair of the current graph and raises `KeyError` when the
pair is not found in the current graph topology (no edge between the two
nodes). -/
def feature_manager (rag : Rag) (u v : Nat) : Except String Feature :=
  if rag.adjacentb u v then Except.ok (u, v) else Except.error "KeyError"

/-- Modelled from the spec: the classifier-derived merge-probability policy;
classifier internals are external, so the score is modelled as the
empirical frequency of SEPARATE labels in the training data. -/
def classifier_probability (clf : Classifier) (_fv : Feature) : Rat :=
  if clf.targs.length = 0 then 1 / 2
  else (clf.targs.count SEPAR_LABEL : Rat) / (clf.targs.length : Rat)

/-- Exclusion tags reaching a live node: a tag on `x` applies to the
current highest ancestor of `x`. -/
def Rag.tagsOf (rag : Rag) (u : Nat) : List Nat :=
  (rag.exclTags.filter (fun t => rag.highest_ancestor t.1 = u)).map (fun t => t.2)

/-- Two live nodes share an exclusion id. -/
def Rag.sharesExclusion (rag : Rag) (u v : Nat) : Bool :=
  (rag.tagsOf u).any (fun i => (rag.tagsOf v).contains i)

/-- Modelled from the spec: one agglomeration step merges an adjacent live
pair whose policy score is below the threshold and which shares no
exclusion tag. -/
def mergeCandidate (rag : Rag) (clf : Classifier) (thr : Rat) : Option (Nat × Nat) :=
  (rag.liveNodes.flatMap (fun u => rag.liveNodes.map (fun v => (u, v)))).find?
    (fun p => rag.adjacentb p.1 p.2 &&
      decide (classifier_probability clf (p.1, p.2) < thr) &&
      !(rag.sharesExclusion p.1 p.2))

/-- Modelled from the spec: `Rag.agglomerate` repeatedly merges qualifying
pairs until none remains (fuel-bounded; each merge removes one live node). -/
def agglomerateAux : Nat → Rag → Classifier → Rat → Rag
  | 0, rag, _, _ => rag
  | fuel + 1, rag, clf, thr =>
    match mergeCandidate rag clf thr with
    | none => rag
    | some (u, v) => agglomerateAux fuel (rag.merge_nodes u v).1 clf thr

/-- Modelled from the spec: agglomerate the graph up to a threshold. -/
def Rag.agglomerate (rag : Rag) (clf : Classifier) (thr : Rat) : Rag :=
  agglomerateAux rag.liveNodes.length rag clf thr

/-- Modelled from the spec: `tree.get_map(threshold)` returns, for every
original fragment id, its resolved segment id in the (agglomerated) graph. -/
def Rag.get_map (rag : Rag) : List Nat :=
  (List.range rag.nfrag).map rag.highest_ancestor

/-- Observable actions of the server, used to state ordering and
diagnostic-reporting properties: classifier training, policy installation,
graph reset, merge-queue rebuild, exclusion tagging, history replay,
agglomeration, lookup-table sending, and console diagnostics. -/
inductive Event where
  | train_classifier (feats : List Feature) (targs : List Nat)
  | install_policy
  | reset_graph
  | rebuild_merge_queue
  | tag_exclusion (i : Nat) (f0 f1 : Nat)
  | replay_history (n : Nat)
  | agglomerate
  | send_lut (fragments segments : List Nat)
  | diagnostic (msg : String)
  deriving Repr, DecidableEq

/-- Incoming protocol message: a `type` with the payload fields used by
`serve.py` (`data['segments']` and `data['what']`). -/
structure Message where
  type : String
  segments : List Nat := []
  what : String := ""
  deriving Repr, DecidableEq

/-- The `Solver` state of serve.py: live graph, frozen original graph,
merge history, separation history, accumulated training features/targets,
installed policy and the (inert) relearn threshold/trigger counters. -/
structure Solver where
  rag : Rag
  original_rag : Rag
  history : List (Nat × Nat)
  separate : List (Nat × Nat)
  features : List Feature
  targets : List Nat
  policy : Option Classifier
  relearn_threshold : Nat
  relearn_trigger : Nat
  deriving Repr, DecidableEq

/-- Result of one solver operation: the (possibly partially) mutated state,
the observable events emitted, and the uncaught exception if one was
raised.  Python exceptions leave prior in-place mutations in effect, so the
state is always returned. -/
structure StepResult where
  st : Solver
  events : List Event
  err : Option String
  deriving Repr, DecidableEq

/-- Fresh solver over a label volume whose fragments are `0 .. nfrag - 1`
with spatial adjacency `adj` and boundary body `bnd` (graph construction
from the label image is external). -/
def Solver.init (nfrag : Nat) (adj : List (Nat × Nat)) (bnd : Nat)
    (relearn_threshold : Nat := 20) : Solver :=
  let rag : Rag :=
    { nfrag := nfrag, origAdj := adj, boundary_body := bnd,
      merges := [], nextId := nfrag, exclTags := [] }
  { rag := rag, original_rag := rag, history := [], separate := [],
    features := [], targets := [], policy := none,
    relearn_threshold := relearn_threshold, relearn_trigger := relearn_threshold }

/-- Depth-first preorder walk from one node: if the node is unvisited,
visit it and recurse into its neighbours in adjacency order
(`nx.dfs_preorder_nodes` discovery order). -/
def dfsNode (adjOf : Nat → List Nat) : Nat → Nat → List Nat → List Nat
  | 0, _, vis => vis
  | fuel + 1, u, vis =>
    if u ∈ vis then vis
    else (adjOf u).foldl (fun vs v => dfsNode adjOf fuel v vs) (vis ++ [u])

/-- Depth-first forest preorder over all nodes, restarting at each
unvisited node in node order (`nx.dfs_preorder_nodes` with no source). -/
def dfsForest (ns : List Nat) (adjOf : Nat → List Nat) : List Nat :=
  ns.foldl (fun vis u => dfsNode adjOf (ns.length + 1) u vis) []

/-- Node list of `nx.subgraph(rag, segset)`: the live nodes belonging to
the selection, in graph node order. -/
def subNodes (rag : Rag) (segset : List Nat) : List Nat :=
  rag.liveNodes.filter (fun x => x ∈ segset)

/-- Neighbour function of the induced subgraph on `segset`. -/
def subAdjOf (rag : Rag) (segset : List Nat) (u : Nat) : List Nat :=
  (subNodes rag segset).filter (fun v => rag.adjacentb u v)

/-- The induced subgraph on a selection is connected iff a depth-first walk
from its first node visits every node. -/
def Connectedb (rag : Rag) (segset : List Nat) : Bool :=
  match subNodes rag segset with
  | [] => true
  | h :: t =>
    (h :: t).all (fun x => x ∈ dfsNode (subAdjOf rag segset) ((h :: t).length + 1) h [])

/-- Loop body of `learn_merge`: for each subsequent traversal node, compute
the feature vector against the current graph (raising `KeyError` if the
pair is not an edge), append the example and history entry, merge, and
advance the accumulated node to the merge result. -/
def mergeChain : Solver → Nat → List Nat → StepResult
  | st, _, [] => ⟨st, [], none⟩
  | st, s0, s1 :: rest =>
    match feature_manager st.rag s0 s1 with
    | Except.error e => ⟨st, [], some e⟩
    | Except.ok fv =>
      let st1 : Solver :=
        { st with features := st.features ++ [fv], history := st.history ++ [(s0, s1)] }
      let rn := st1.rag.merge_nodes s0 s1
      let st2 : Solver := { st1 with rag := rn.1, targets := st1.targets ++ [MERGE_LABEL] }
      mergeChain st2 rn.2 rest

/-- `Solver.learn_merge`: resolve each id to its current highest ancestor,
deduplicate, order the set by a depth-first preorder of the induced
subgraph, and fold the merge loop over the traversal (an empty traversal
raises `StopIteration` at `next(ordered)`). -/
def Solver.learn_merge (st : Solver) (segments : List Nat) : StepResult :=
  match dfsForest (subNodes st.rag ((segments.map st.rag.highest_ancestor).dedup))
      (subAdjOf st.rag ((segments.map st.rag.highest_ancestor).dedup)) with
  | [] => ⟨st, [], some "StopIteration"⟩
  | s0 :: rest => mergeChain st s0 rest

/-- `Solver.learn_separation`: no-op when either fragment is the boundary
body; otherwise resolve the pair via `separate_fragments`, and either
record the example or (on `KeyError` from feature extraction) report a
diagnostic and drop it.  Unpacking a non-pair raises `ValueError`. -/
def Solver.learn_separation (st : Solver) (fragments : List Nat) : StepResult :=
  match fragments with
  | [f0, f1] =>
    if st.rag.boundary_body = f0 ∨ st.rag.boundary_body = f1 then ⟨st, [], none⟩
    else
      match feature_manager (st.rag.separate_fragments f0 f1).1
          (st.rag.separate_fragments f0 f1).2.1 (st.rag.separate_fragments f0 f1).2.2 with
      | Except.error _ =>
        ⟨{ st with rag := (st.rag.separate_fragments f0 f1).1 },
         [Event.diagnostic "failed to split segments"], none⟩
      | Except.ok fv =>
        ⟨{ st with rag := (st.rag.separate_fragments f0 f1).1,
                   features := st.features ++ [fv],
                   targets := st.targets ++ [SEPAR_LABEL],
                   separate := st.separate ++ [(f0, f1)] }, [], none⟩
  | _ => ⟨st, [], some "ValueError"⟩

/-- Tag, for separation record `i` with fragments `(f0, f1)`, both nodes of
the fresh graph with exclusion id `i`. -/
def tagExclusions (rag : Rag) (sep : List (Nat × Nat)) : Rag :=
  { rag with
    exclTags := rag.exclTags ++ (sep.enum.flatMap (fun p => [(p.2.1, p.1), (p.2.2, p.1)])) }

/-- Modelled from the spec: `Rag.replay_merge_history` re-applies the
recorded merges, in original order, onto the graph. -/
def replay_merge_history (rag : Rag) : List (Nat × Nat) → Rag
  | [] => rag
  | (a, b) :: rest => replay_merge_history (rag.merge_nodes a b).1 rest

/-- `Solver.relearn`: train the classifier on all accumulated examples,
install the classifier-derived policy, reset the graph to a fresh copy of
the original, rebuild its merge queue, tag every recorded separation's
nodes with its exclusion id, and replay the full merge history. -/
def Solver.relearn (st : Solver) : StepResult :=
  let clf : Classifier := ⟨st.features, st.targets⟩
  let ev1 := [Event.train_classifier st.features st.targets, Event.install_policy]
  let fresh := st.original_rag
  let ev2 := [Event.reset_graph, Event.rebuild_merge_queue]
  let tagged := tagExclusions fresh st.separate
  let ev3 := st.separate.enum.map (fun p => Event.tag_exclusion p.1 p.2.1 p.2.2)
  let rag2 := replay_merge_history tagged st.history
  let ev4 := [Event.replay_history st.history.length]
  ⟨{ st with policy := some clf, rag := rag2 }, ev1 ++ ev2 ++ ev3 ++ ev4, none⟩

/-- Fragment-to-segment lookup table served by `send_segmentation`:
`dst = tree.get_map(0.5)` after relearning and agglomerating to 0.5, and
`src = range(len(dst))`. -/
def Solver.lut (st : Solver) : List Nat × List Nat :=
  let r := st.relearn
  let rag2 := r.st.rag.agglomerate ⟨st.features, st.targets⟩ (1 / 2)
  let dst := rag2.get_map
  (List.range dst.length, dst)

/-- `Solver.send_segmentation`: relearn, agglomerate the live graph to 0.5,
and send the fragment-segment lookup table. -/
def Solver.send_segmentation (st : Solver) : StepResult :=
  let r := st.relearn
  let rag2 := r.st.rag.agglomerate ⟨st.features, st.targets⟩ (1 / 2)
  let dst := rag2.get_map
  let src := List.range dst.length
  ⟨{ r.st with rag := rag2 },
   r.events ++ [Event.agglomerate, Event.send_lut src dst], none⟩

/-- Outcome of running the `listen` loop on a finite incoming message list:
final state, emitted events, whether the loop returned (`stop` or an
unrecognized command), the uncaught exception if one was raised, and the
messages left unread. -/
structure ListenResult where
  st : Solver
  events : List Event
  stopped : Bool
  err : Option String
  remaining : List Message
  deriving Repr, DecidableEq

/-- `Solver.listen`: dispatch each incoming message on its `type`; `merge`,
`separate`, and `request` keep listening, `stop` and any unrecognized type
return from the loop, and an uncaught handler exception propagates.  An
exhausted message list models the loop blocked waiting to receive. -/
def Solver.listen (st : Solver) : List Message → ListenResult
  | [] => ⟨st, [], false, none, []⟩
  | m :: rest =>
    if m.type = "merge" then
      let r := st.learn_merge m.segments
      match r.err with
      | some e => ⟨r.st, r.events, false, some e, rest⟩
      | none =>
        let l := Solver.listen r.st rest
        ⟨l.st, r.events ++ l.events, l.stopped, l.err, l.remaining⟩
    else if m.type = "separate" then
      let r := st.learn_separation m.segments
      match r.err with
      | some e => ⟨r.st, r.events, false, some e, rest⟩
      | none =>
        let l := Solver.listen r.st rest
        ⟨l.st, r.events ++ l.events, l.stopped, l.err, l.remaining⟩
    else if m.type = "request" then
      if m.what = "fragment-segment-lut" then
        let r := st.send_segmentation
        let l := Solver.listen r.st rest
        ⟨l.st, r.events ++ l.events, l.stopped, l.err, l.remaining⟩
      else
        let l := Solver.listen st rest
        ⟨l.st, l.events, l.stopped, l.err, l.remaining⟩
    else if m.type = "stop" then ⟨st, [], true, none, rest⟩
    else ⟨st, [Event.diagnostic ("command " ++ m.type ++ " not recognized.")],
          true, none, rest⟩

/-- State transformer of a single dispatched command (used to quantify over
session states reached by arbitrary command sequences). -/
def Solver.applyCommand (st : Solver) (m : Message) : Solver :=
  if m.type = "merge" then (st.learn_merge m.segments).st
  else if m.type = "separate" then (st.learn_separation m.segments).st
  else if m.type = "request" then
    if m.what = "fragment-segment-lut" then st.send_segmentation.st else st
  else st

/-- Fold of `applyCommand` over a command sequence. -/
def Solver.runCommands (st : Solver) (msgs : List Message) : Solver :=
  msgs.foldl Solver.applyCommand st

/-- Modelled from the spec: the contingency-table column for a ground-truth
label, as the distinct fragment ids with nonzero overlap with that label
(`ctable.getcol(label).indices`); `frag` and `truth` list the fragment and
true label of each pixel. -/
def overlapComponents (frag truth : List Nat) (label : Nat) : List Nat :=
  (((frag.zip truth).filter (fun p => p.2 = label)).map (fun p => p.1)).dedup

/-- Modelled from the spec: `np.unique` of the reference segmentation, the
distinct ground-truth labels. -/
def uniqueLabels (truth : List Nat) : List Nat :=
  truth.dedup

/-- Neighbours of a fragment in the base adjacency graph
(`agglo2.fast_rag(fragments)`, external), given as an edge list. -/
def baseNeighbors (baseAdj : List (Nat × Nat)) (f : Nat) : List Nat :=
  (baseAdj.filter (fun pq => pq.1 = f)).map (fun pq => pq.2) ++
    (baseAdj.filter (fun pq => pq.2 = f)).map (fun pq => pq.1)

/-- Messages sent for one simulated proofreading operation: one `merge` of
the label's overlap components, then one `separate` per boundary pair. -/
def proofreadOp (frag truth : List Nat) (baseAdj : List (Nat × Nat)) (label : Nat) :
    List Message :=
  let components := overlapComponents frag truth label
  ({ type := "merge", segments := components } : Message) ::
    (components.flatMap (fun fragment =>
      ((baseNeighbors baseAdj fragment).filter (fun nb => nb ∉ components)).map
        (fun nb => ({ type := "separate", segments := [fragment, nb] } : Message))))

/-- The message stream emitted by the `proofread` simulator: for each of
`zip(range(num_operations), shuffled)` (zip-shortest), one merge plus its
boundary separations; then a lookup-table request; then, optionally, a
stop.  `shuffled` is the seeded shuffle of the distinct true labels. -/
def proofread (frag truth : List Nat) (baseAdj : List (Nat × Nat))
    (shuffled : List Nat) (num_operations : Nat) (stop_when_finished : Bool) :
    List Message :=
  (((List.range num_operations).zip shuffled).flatMap
      (fun p => proofreadOp frag truth baseAdj p.2))
    ++ [{ type := "request", what := "fragment-segment-lut" }]
    ++ (if stop_when_finished then [({ type := "stop" } : Message)] else [])

/-- Number of `merge` commands in a message stream. -/
def mergeCount (msgs : List Message) : Nat :=
  (msgs.filter (fun m => m.type = "merge")).length

/-- All ids mentioned by a list of merge records. -/
def recIds (ms : List (Nat × Nat × Nat)) : List Nat :=
  ms.flatMap (fun r => [r.1, r.2.1, r.2.2])

/-- Merge records are well formed from a lower id bound: each record's
fresh id is at least the bound and above both children, and later records
only use larger fresh ids. -/
def mergesWfb : Nat → List (Nat × Nat × Nat) → Bool
  | _, [] => true
  | lo, (a, b, n) :: rest =>
    decide (lo ≤ n) && decide (a < n) && decide (b < n) && mergesWfb (n + 1) rest

/-- A well-formed graph: fragment ids below `nextId`, adjacency between
original fragments only, well-formed merge records whose ids all lie below
`nextId`. -/
def Rag.wfb (rag : Rag) : Bool :=
  decide (rag.nfrag ≤ rag.nextId) &&
  rag.origAdj.all (fun pq => decide (pq.1 < rag.nfrag) && decide (pq.2 < rag.nfrag)) &&
  mergesWfb rag.nfrag rag.merges &&
  (recIds rag.merges).all (fun i => decide (i < rag.nextId))

/-- A node is linked to an accumulated selection when it is adjacent to one
of its members. -/
def linkedTo (rag : Rag) (acc : List Nat) (x : Nat) : Bool :=
  acc.any (fun y => rag.adjacentb y x)

/-- Split a traversal order at the first node not linked to any earlier
node (the accumulator seeds the earlier nodes): returns the linked prefix
and, if any, the first unlinked node. -/
def chainSplit (rag : Rag) : List Nat → List Nat → List Nat × Option Nat
  | _, [] => ([], none)
  | acc, x :: xs =>
    if linkedTo rag acc x then
      let r := chainSplit rag (acc ++ [x]) xs
      (x :: r.1, r.2)
    else ([], some x)

/-- Every node of the list is adjacent to some node occurring before it
(with the accumulator seeding the earlier nodes). -/
def LinkedOrd (rag : Rag) : List Nat → List Nat → Prop
  | _, [] => True
  | acc, x :: xs => (∃ y ∈ acc, rag.adjacentb y x = true) ∧ LinkedOrd rag (acc ++ [x]) xs

/-- Concrete session used as a test fixture: five fragments `0 .. 4`,
boundary body `0`, chain adjacency `1 - 2 - 3 - 4`. -/
def chainSolver : Solver := Solver.init 5 [(1, 2), (2, 3), (3, 4)] 0

/-- Number of nodes of `ns` not yet visited (fuel measure for the
depth-first traversal). -/
def unvis (ns vis : List Nat) : Nat :=
  (ns.filter (fun x => x ∉ vis)).length

/-- CorrectionLog invariant: features and targets stay parallel, every
merge-history entry corresponds to a MERGE-labeled example and every
separation-history entry to a SEPARATE-labeled example. -/
def LogInv (st : Solver) : Prop :=
  st.features.length = st.targets.length ∧
  st.targets.count MERGE_LABEL = st.history.length ∧
  st.targets.count SEPAR_LABEL = st.separate.length

instance (st : Solver) : Decidable (LogInv st) := by
  unfold LogInv
  infer_instance

/-! ### Root-map lemmas -/

lemma alookup_append (l1 l2 : List (Nat × Nat)) (x : Nat) :
    alookup (l1 ++ l2) x =
      (match alookup l1 x with
       | some v => some v
       | none => alookup l2 x) := by
  induction l1 with
  | nil => simp [alookup]
  | cons kv rest ih =>
    obtain ⟨k, v⟩ := kv
    by_cases h : x = k
    · simp [alookup, h]
    · simp [alookup, h, ih]

lemma alookup_map_snd (l : List (Nat × Nat)) (f : Nat → Nat) (x : Nat) :
    alookup (l.map (fun kv => (kv.1, f kv.2))) x = (alookup l x).map f := by
  induction l with
  | nil => simp [alookup]
  | cons kv rest ih =>
    obtain ⟨k, v⟩ := kv
    by_cases h : x = k
    · simp [alookup, h]
    · simp [alookup, h, ih]

lemma alookup_reroot (l : List (Nat × Nat)) (a b n x : Nat) :
    alookup (l.map (fun kv => (kv.1, if kv.2 = a ∨ kv.2 = b then n else kv.2))) x =
      (alookup l x).map (fun v => if v = a ∨ v = b then n else v) := by
  induction l with
  | nil => simp [alookup]
  | cons kv rest ih =>
    obtain ⟨k, v⟩ := kv
    by_cases h : x = k
    · simp [alookup, h]
    · simp [alookup, h, ih]

lemma alookup_mem {l : List (Nat × Nat)} {x v : Nat} (h : alookup l x = some v) :
    (x, v) ∈ l := by
  induction l with
  | nil => simp [alookup] at h
  | cons kv rest ih =>
    obtain ⟨k, w⟩ := kv
    by_cases hx : x = k
    · simp [alookup, hx] at h
      simp [hx, h]
    · simp [alookup, hx] at h
      exact List.mem_cons_of_mem _ (ih h)

lemma buildRoot_snoc (ms : List (Nat × Nat × Nat)) (a b n : Nat) :
    buildRoot (ms ++ [(a, b, n)]) = updateRoots (buildRoot ms) a b n := by
  simp [buildRoot, List.foldl_append]

lemma recIds_append (l1 l2 : List (Nat × Nat × Nat)) :
    recIds (l1 ++ l2) = recIds l1 ++ recIds l2 := by
  simp [recIds]

lemma buildRoot_ids (ms : List (Nat × Nat × Nat)) :
    ∀ kv ∈ buildRoot ms, kv.1 ∈ recIds ms ∧ kv.2 ∈ recIds ms := by
  induction ms using List.reverseRecOn with
  | nil => simp [buildRoot]
  | append_singleton ms r ih =>
    obtain ⟨a, b, n⟩ := r
    intro kv hkv
    rw [buildRoot_snoc] at hkv
    unfold updateRoots at hkv
    rcases List.mem_append.mp hkv with hm | hm
    · obtain ⟨⟨k, v⟩, hmem, rfl⟩ := List.mem_map.mp hm
      obtain ⟨hk, hv⟩ := ih _ hmem
      constructor
      · rw [recIds_append]
        exact List.mem_append_left _ hk
      · by_cases hc : v = a ∨ v = b
        · simp only [hc, if_true]
          simp [recIds_append, recIds]
        · simp only [hc, if_false]
          rw [recIds_append]
          exact List.mem_append_left _ hv
    · simp only [List.mem_cons, List.not_mem_nil, or_false] at hm
      rcases hm with rfl | rfl | rfl <;>
        exact ⟨by simp [recIds_append, recIds], by simp [recIds_append, recIds]⟩

lemma rootAt_not_mem {ms : List (Nat × Nat × Nat)} {x : Nat} (h : x ∉ recIds ms) :
    rootAt ms x = x := by
  unfold rootAt
  cases hl : alookup (buildRoot ms) x with
  | none => rfl
  | some v =>
    exact absurd ((buildRoot_ids ms _ (alookup_mem hl)).1) h

lemma rootAt_mem_or_self (ms : List (Nat × Nat × Nat)) (x : Nat) :
    rootAt ms x ∈ recIds ms ∨ rootAt ms x = x := by
  unfold rootAt
  cases hl : alookup (buildRoot ms) x with
  | none => right; rfl
  | some v =>
    left
    simpa using (buildRoot_ids ms _ (alookup_mem hl)).2

lemma rootAt_snoc {ms : List (Nat × Nat × Nat)} {n : Nat}
    (hbound : ∀ i ∈ recIds ms, i < n) (a b x : Nat) :
    rootAt (ms ++ [(a, b, n)]) x =
      if rootAt ms x = a ∨ rootAt ms x = b ∨ x = n then n else rootAt ms x := by
  unfold rootAt
  rw [buildRoot_snoc]
  unfold updateRoots
  rw [alookup_append, alookup_reroot]
  cases hl : alookup (buildRoot ms) x with
  | some v =>
    have hxmem : x ∈ recIds ms := (buildRoot_ids ms _ (alookup_mem hl)).1
    have hxn : x ≠ n := Nat.ne_of_lt (hbound _ hxmem)
    by_cases hc : v = a ∨ v = b
    · rcases hc with rfl | rfl <;> simp [hxn]
    · have hc3 : ¬(v = a ∨ v = b ∨ x = n) := by
        rintro (h | h | h)
        · exact hc (Or.inl h)
        · exact hc (Or.inr h)
        · exact hxn h
      simp [hc, hc3]
  | none =>
    by_cases hxa : x = a
    · simp [alookup, hxa]
    · by_cases hxb : x = b
      · simp [alookup, hxa, hxb]
      · by_cases hxn : x = n
        · simp [alookup, hxa, hxb, hxn]
        · have hc3 : ¬(x = a ∨ x = b ∨ x = n) := by
            rintro (h | h | h) <;> [exact hxa h; exact hxb h; exact hxn h]
          simp [alookup, hxa, hxb, hxn, hc3]

lemma mergesWfb_lo_le {lo : Nat} {ms : List (Nat × Nat × Nat)}
    (h : mergesWfb lo ms = true) : ∀ r ∈ ms, lo ≤ r.2.2 := by
  induction ms generalizing lo with
  | nil => simp
  | cons r rest ih =>
    obtain ⟨a, b, n⟩ := r
    simp only [mergesWfb, Bool.and_eq_true, decide_eq_true_eq] at h
    obtain ⟨⟨⟨h1, _⟩, _⟩, h4⟩ := h
    intro r' hr'
    rcases List.mem_cons.mp hr' with heq | hmem
    · rw [heq]
      exact h1
    · exact le_trans (Nat.le_succ_of_le h1) (ih h4 _ hmem)

lemma mergesWfb_snoc_facts {lo a b n : Nat} {ms : List (Nat × Nat × Nat)}
    (h : mergesWfb lo (ms ++ [(a, b, n)]) = true) :
    mergesWfb lo ms = true ∧ (∀ i ∈ recIds ms, i < n) ∧ a < n ∧ b < n := by
  induction ms generalizing lo with
  | nil =>
    simp only [List.nil_append, mergesWfb, Bool.and_eq_true, decide_eq_true_eq] at h
    exact ⟨rfl, by simp [recIds], h.1.1.2, h.1.2⟩
  | cons r rest ih =>
    obtain ⟨a', b', n'⟩ := r
    simp only [List.cons_append, mergesWfb, Bool.and_eq_true, decide_eq_true_eq] at h
    obtain ⟨⟨⟨h1, h2⟩, h3⟩, h4⟩ := h
    obtain ⟨hw, hbound, han, hbn⟩ := ih h4
    have hn'n : n' < n := by
      have hle : n' + 1 ≤ n := by simpa using mergesWfb_lo_le h4 (a, b, n) (by simp)
      omega
    refine ⟨?_, ?_, han, hbn⟩
    · simp [mergesWfb, h1, h2, h3, hw]
    · intro i hi
      simp only [recIds, List.flatMap_cons, List.mem_append, List.mem_cons] at hi
      rcases hi with hi | hi
      · simp at hi
        rcases hi with hi | hi | hi <;> omega
      · exact hbound i (by simpa [recIds] using hi)

lemma mergesWfb_snoc {lo a b n : Nat} {ms : List (Nat × Nat × Nat)}
    (h : mergesWfb lo ms = true) (hbound : ∀ i ∈ recIds ms, i < n)
    (hlo : lo ≤ n) (ha : a < n) (hb : b < n) :
    mergesWfb lo (ms ++ [(a, b, n)]) = true := by
  induction ms generalizing lo with
  | nil => simp [mergesWfb, hlo, ha, hb]
  | cons r rest ih =>
    obtain ⟨a', b', n'⟩ := r
    simp only [mergesWfb, Bool.and_eq_true, decide_eq_true_eq] at h
    obtain ⟨⟨⟨h1, h2⟩, h3⟩, h4⟩ := h
    have hn' : n' < n := hbound n' (by simp [recIds])
    have hrec : mergesWfb (n' + 1) (rest ++ [(a, b, n)]) = true := by
      refine ih h4 ?_ (by omega)
      intro i hi
      apply hbound
      simp only [recIds, List.flatMap_cons, List.mem_append]
      right
      simpa [recIds] using hi
    simp [mergesWfb, h1, h2, h3, hrec]

lemma mergesWfb_of_append {lo : Nat} {l1 l2 : List (Nat × Nat × Nat)}
    (h : mergesWfb lo (l1 ++ l2) = true) : mergesWfb lo l1 = true := by
  induction l1 generalizing lo with
  | nil => rfl
  | cons r rest ih =>
    obtain ⟨a, b, n⟩ := r
    simp only [mergesWfb, Bool.and_eq_true, decide_eq_true_eq] at h ⊢
    exact ⟨⟨⟨h.1.1.1, h.1.1.2⟩, h.1.2⟩, ih h.2⟩

lemma rootAt_flat {lo : Nat} {ms : List (Nat × Nat × Nat)}
    (h : mergesWfb lo ms = true) (x : Nat) :
    rootAt ms (rootAt ms x) = rootAt ms x := by
  induction ms using List.reverseRecOn generalizing x with
  | nil => simp [rootAt, buildRoot, alookup]
  | append_singleton ms r ih =>
    obtain ⟨a, b, n⟩ := r
    obtain ⟨hw, hbound, han, hbn⟩ := mergesWfb_snoc_facts h
    have hroot := rootAt_snoc hbound a b
    rw [hroot x]
    by_cases hc : rootAt ms x = a ∨ rootAt ms x = b ∨ x = n
    · simp only [hc, if_true]
      rw [hroot n]
      have hn : rootAt ms n = n := rootAt_not_mem (fun hmem => absurd (hbound _ hmem) (by omega))
      simp [hn, Nat.ne_of_lt han, Nat.ne_of_lt hbn]
    · simp only [hc, if_false]
      rw [hroot (rootAt ms x)]
      push_neg at hc
      obtain ⟨hca, hcb, hcn⟩ := hc
      have hflat := ih hw x
      have hne : rootAt ms x ≠ n := by
        rcases rootAt_mem_or_self ms x with hm | hm
        · exact Nat.ne_of_lt (hbound _ hm)
        · rw [hm]; exact hcn
      simp [hflat, hca, hcb, hne]

/-! ### Graph-level well-formedness lemmas -/

lemma Rag.wfb_parts {rag : Rag} (h : rag.wfb = true) :
    rag.nfrag ≤ rag.nextId ∧
      (∀ pq ∈ rag.origAdj, pq.1 < rag.nfrag ∧ pq.2 < rag.nfrag) ∧
      mergesWfb rag.nfrag rag.merges = true ∧
      (∀ i ∈ recIds rag.merges, i < rag.nextId) := by
  simp only [Rag.wfb, Bool.and_eq_true, decide_eq_true_eq, List.all_eq_true] at h
  refine ⟨h.1.1.1, ?_, h.1.2, ?_⟩
  · intro pq hpq
    have := h.1.1.2 pq hpq
    simpa [Bool.and_eq_true, decide_eq_true_eq] using this
  · intro i hi
    have := h.2 i hi
    simpa using this

lemma Rag.root_flat {rag : Rag} (h : rag.wfb = true) (x : Nat) :
    rag.highest_ancestor (rag.highest_ancestor x) = rag.highest_ancestor x :=
  rootAt_flat (rag.wfb_parts h).2.2.1 x

lemma Rag.root_lt {rag : Rag} (h : rag.wfb = true) {x : Nat} (hx : x < rag.nextId) :
    rag.highest_ancestor x < rag.nextId := by
  rcases rootAt_mem_or_self rag.merges x with hm | hm
  · exact (rag.wfb_parts h).2.2.2 _ hm
  · unfold Rag.highest_ancestor
    rw [hm]
    exact hx

lemma Rag.root_live {rag : Rag} (h : rag.wfb = true) {x : Nat} (hx : x < rag.nextId) :
    rag.highest_ancestor x ∈ rag.liveNodes := by
  unfold Rag.liveNodes
  rw [List.mem_filter]
  exact ⟨List.mem_range.mpr (rag.root_lt h hx),
    decide_eq_true (rag.root_flat h x)⟩

lemma Rag.live_facts {rag : Rag} {x : Nat} (h : x ∈ rag.liveNodes) :
    x < rag.nextId ∧ rag.highest_ancestor x = x := by
  unfold Rag.liveNodes at h
  rw [List.mem_filter] at h
  exact ⟨List.mem_range.mp h.1, of_decide_eq_true h.2⟩

lemma Rag.merge_root {rag : Rag} (h : rag.wfb = true) (a b x : Nat) :
    ((rag.merge_nodes a b).1).highest_ancestor x =
      if rag.highest_ancestor x = a ∨ rag.highest_ancestor x = b ∨ x = rag.nextId
      then rag.nextId else rag.highest_ancestor x := by
  unfold Rag.merge_nodes Rag.highest_ancestor
  exact rootAt_snoc (rag.wfb_parts h).2.2.2 a b x

lemma Rag.merge_wfb {rag : Rag} (h : rag.wfb = true) {a b : Nat}
    (ha : a < rag.nextId) (hb : b < rag.nextId) :
    ((rag.merge_nodes a b).1).wfb = true := by
  obtain ⟨h1, h2, h3, h4⟩ := rag.wfb_parts h
  unfold Rag.merge_nodes Rag.wfb
  simp only [Bool.and_eq_true, decide_eq_true_eq, List.all_eq_true]
  refine ⟨⟨⟨by omega, ?_⟩, ?_⟩, ?_⟩
  · intro pq hpq
    have := h2 pq hpq
    simp [this.1, this.2]
  · exact mergesWfb_snoc h3 h4 h1 ha hb
  · intro i hi
    rw [recIds_append] at hi
    rcases List.mem_append.mp hi with hm | hm
    · have := h4 i hm
      omega
    · simp only [recIds, List.flatMap_cons, List.flatMap_nil, List.append_nil,
        List.mem_cons, List.not_mem_nil, or_false] at hm
      rcases hm with rfl | rfl | rfl <;> omega

/-! ### Depth-first-search lemmas -/

lemma dfsNode_visited {adjOf : Nat → List Nat} {fuel u : Nat} {vis : List Nat}
    (h : u ∈ vis) : dfsNode adjOf fuel u vis = vis := by
  cases fuel with
  | zero => rfl
  | succ fuel => simp [dfsNode, h]

lemma dfsNode_shape (adjOf : Nat → List Nat) :
    ∀ (fuel u : Nat) (vis : List Nat), ∃ ext, dfsNode adjOf fuel u vis = vis ++ ext := by
  intro fuel
  induction fuel with
  | zero => intro u vis; exact ⟨[], by simp [dfsNode]⟩
  | succ fuel ih =>
    intro u vis
    by_cases hu : u ∈ vis
    · exact ⟨[], by simp [dfsNode, hu]⟩
    · have hfold : ∀ (cs vs : List Nat),
          ∃ ext, cs.foldl (fun a v => dfsNode adjOf fuel v a) vs = vs ++ ext := by
        intro cs
        induction cs with
        | nil => intro vs; exact ⟨[], by simp⟩
        | cons c cs ihc =>
          intro vs
          obtain ⟨e1, he1⟩ := ih c vs
          obtain ⟨e2, he2⟩ := ihc (dfsNode adjOf fuel c vs)
          refine ⟨e1 ++ e2, ?_⟩
          simp only [List.foldl_cons]
          rw [he2, he1, List.append_assoc]
      obtain ⟨ext, hext⟩ := hfold (adjOf u) (vis ++ [u])
      refine ⟨u :: ext, ?_⟩
      simp only [dfsNode, hu, if_false]
      rw [hext, List.append_assoc]
      rfl

lemma dfsFold_shape (adjOf : Nat → List Nat) (fuel : Nat) :
    ∀ (cs vs : List Nat),
      ∃ ext, cs.foldl (fun a v => dfsNode adjOf fuel v a) vs = vs ++ ext := by
  intro cs
  induction cs with
  | nil => intro vs; exact ⟨[], by simp⟩
  | cons c cs ihc =>
    intro vs
    obtain ⟨e1, he1⟩ := dfsNode_shape adjOf fuel c vs
    obtain ⟨e2, he2⟩ := ihc (dfsNode adjOf fuel c vs)
    refine ⟨e1 ++ e2, ?_⟩
    simp only [List.foldl_cons]
    rw [he2, he1, List.append_assoc]

lemma dfsNode_mono {adjOf : Nat → List Nat} {fuel u : Nat} {vis : List Nat} :
    ∀ x ∈ vis, x ∈ dfsNode adjOf fuel u vis := by
  obtain ⟨ext, hext⟩ := dfsNode_shape adjOf fuel u vis
  intro x hx
  rw [hext]
  exact List.mem_append_left _ hx

lemma dfsNode_start {adjOf : Nat → List Nat} {fuel u : Nat} {vis : List Nat}
    (h : 0 < fuel) : u ∈ dfsNode adjOf fuel u vis := by
  cases fuel with
  | zero => omega
  | succ fuel =>
    by_cases hu : u ∈ vis
    · simp [dfsNode, hu]
    · simp only [dfsNode, hu, if_false]
      obtain ⟨ext, hext⟩ := dfsFold_shape adjOf fuel (adjOf u) (vis ++ [u])
      rw [hext]
      exact List.mem_append_left _ (List.mem_append_right _ (List.mem_singleton.mpr rfl))

lemma dfsNode_nodup (adjOf : Nat → List Nat) :
    ∀ (fuel u : Nat) (vis : List Nat), vis.Nodup → (dfsNode adjOf fuel u vis).Nodup := by
  intro fuel
  induction fuel with
  | zero => intro u vis h; exact h
  | succ fuel ih =>
    intro u vis h
    by_cases hu : u ∈ vis
    · simpa [dfsNode, hu] using h
    · simp only [dfsNode, hu, if_false]
      have hbase : (vis ++ [u]).Nodup := by
        rw [List.nodup_append]
        refine ⟨h, List.nodup_singleton u, ?_⟩
        intro a ha hb
        exact hu (List.mem_singleton.mp hb ▸ ha)
      have hfold : ∀ (cs vs : List Nat), vs.Nodup →
          (cs.foldl (fun a v => dfsNode adjOf fuel v a) vs).Nodup := by
        intro cs
        induction cs with
        | nil => intro vs hv; exact hv
        | cons c cs ihc =>
          intro vs hv
          exact ihc _ (ih c vs hv)
      exact hfold _ _ hbase

lemma dfsNode_subset (adjOf : Nat → List Nat) (ns : List Nat)
    (Hsub : ∀ w v, v ∈ adjOf w → v ∈ ns) :
    ∀ (fuel u : Nat) (vis : List Nat), u ∈ ns →
      ∀ x ∈ dfsNode adjOf fuel u vis, x ∈ vis ∨ x ∈ ns := by
  intro fuel
  induction fuel with
  | zero => intro u vis _ x hx; exact Or.inl hx
  | succ fuel ih =>
    intro u vis hu x hx
    by_cases huv : u ∈ vis
    · rw [dfsNode_visited huv] at hx
      exact Or.inl hx
    · simp only [dfsNode, huv, if_false] at hx
      have hfold : ∀ (cs vs : List Nat), (∀ c ∈ cs, c ∈ ns) →
          (∀ y ∈ vs, y ∈ vis ∨ y ∈ ns) →
          ∀ y ∈ cs.foldl (fun a v => dfsNode adjOf fuel v a) vs, y ∈ vis ∨ y ∈ ns := by
        intro cs
        induction cs with
        | nil => intro vs _ hvs y hy; exact hvs y hy
        | cons c cs ihc =>
          intro vs hcs hvs y hy
          refine ihc _ (fun c' hc' => hcs c' (List.mem_cons_of_mem _ hc')) ?_ y hy
          intro z hz
          rcases ih c vs (hcs c (List.mem_cons_self c cs)) z hz with hz' | hz'
          · exact hvs z hz'
          · exact Or.inr hz'
      refine hfold _ _ (fun c hc => Hsub u c hc) ?_ x hx
      intro y hy
      rcases List.mem_append.mp hy with hy | hy
      · exact Or.inl hy
      · right
        rw [List.mem_singleton.mp hy]
        exact hu

lemma linkedOrd_nil (rag : Rag) (acc : List Nat) : LinkedOrd rag acc [] := by
  simp [LinkedOrd]

lemma linkedOrd_append {rag : Rag} :
    ∀ {l1 l2 acc : List Nat}, LinkedOrd rag acc l1 → LinkedOrd rag (acc ++ l1) l2 →
      LinkedOrd rag acc (l1 ++ l2) := by
  intro l1
  induction l1 with
  | nil => intro l2 acc _ h2; simpa using h2
  | cons x xs ih =>
    intro l2 acc h1 h2
    obtain ⟨hx, hxs⟩ := h1
    refine ⟨hx, ih hxs ?_⟩
    have : acc ++ [x] ++ xs = acc ++ x :: xs := by simp
    rw [this]
    exact h2

lemma dfsNode_linked (adjOf : Nat → List Nat) (rag : Rag)
    (Hadj : ∀ u v, v ∈ adjOf u → rag.adjacentb u v = true) :
    ∀ (fuel u : Nat) (vis : List Nat),
      (u ∈ vis ∨ ∃ y ∈ vis, rag.adjacentb y u = true) →
      ∃ ext, dfsNode adjOf fuel u vis = vis ++ ext ∧ LinkedOrd rag vis ext := by
  intro fuel
  induction fuel with
  | zero =>
    intro u vis _
    exact ⟨[], by simp [dfsNode], linkedOrd_nil rag vis⟩
  | succ fuel ih =>
    intro u vis hu
    by_cases huv : u ∈ vis
    · exact ⟨[], by simp [dfsNode, huv], linkedOrd_nil rag vis⟩
    · have hadj : ∃ y ∈ vis, rag.adjacentb y u = true := by
        rcases hu with h | h
        · exact absurd h huv
        · exact h
      have hfold : ∀ (cs vs : List Nat),
          (∀ v ∈ cs, ∃ y ∈ vs, rag.adjacentb y v = true) →
          ∃ ext, cs.foldl (fun a v => dfsNode adjOf fuel v a) vs = vs ++ ext ∧
            LinkedOrd rag vs ext := by
        intro cs
        induction cs with
        | nil => intro vs _; exact ⟨[], by simp, linkedOrd_nil rag vs⟩
        | cons c cs ihc =>
          intro vs hcs
          obtain ⟨e1, he1, hl1⟩ := ih c vs (Or.inr (hcs c (List.mem_cons_self c cs)))
          have hcs' : ∀ v ∈ cs, ∃ y ∈ vs ++ e1, rag.adjacentb y v = true := by
            intro v hv
            obtain ⟨y, hy, hyv⟩ := hcs v (List.mem_cons_of_mem _ hv)
            exact ⟨y, List.mem_append_left _ hy, hyv⟩
          obtain ⟨e2, he2, hl2⟩ := ihc (vs ++ e1) hcs'
          refine ⟨e1 ++ e2, ?_, linkedOrd_append hl1 hl2⟩
          simp only [List.foldl_cons]
          rw [he1, he2, List.append_assoc]
      have hch : ∀ v ∈ adjOf u, ∃ y ∈ vis ++ [u], rag.adjacentb y v = true := fun v hv =>
        ⟨u, List.mem_append_right _ (List.mem_singleton.mpr rfl), Hadj u v hv⟩
      obtain ⟨ext, hext, hlink⟩ := hfold (adjOf u) (vis ++ [u]) hch
      refine ⟨u :: ext, ?_, hadj, hlink⟩
      simp only [dfsNode, huv, if_false]
      rw [hext, List.append_assoc]
      rfl

lemma filter_length_mono {p q : Nat → Bool} (h : ∀ x, p x = true → q x = true)
    (ns : List Nat) : (ns.filter p).length ≤ (ns.filter q).length := by
  induction ns with
  | nil => simp
  | cons a ns ih =>
    simp only [List.filter_cons]
    by_cases hp : p a = true
    · rw [if_pos hp, if_pos (h a hp)]
      simpa using ih
    · rw [if_neg hp]
      by_cases hq : q a = true
      · rw [if_pos hq]
        simp
        omega
      · rw [if_neg hq]
        exact ih

lemma filter_length_strict {p q : Nat → Bool} (h : ∀ x, p x = true → q x = true)
    {ns : List Nat} {u : Nat} (hu : u ∈ ns) (hpu : p u = false) (hqu : q u = true) :
    (ns.filter p).length < (ns.filter q).length := by
  induction ns with
  | nil => cases hu
  | cons a ns ih =>
    simp only [List.filter_cons]
    rcases List.mem_cons.mp hu with heq | hmem
    · subst heq
      rw [if_neg (by simp [hpu]), if_pos hqu]
      simp
      exact Nat.lt_succ_of_le (filter_length_mono h ns)
    · by_cases hpa : p a = true
      · rw [if_pos hpa, if_pos (h a hpa)]
        simpa using ih hmem
      · rw [if_neg hpa]
        by_cases hqa : q a = true
        · rw [if_pos hqa]
          simp
          exact Nat.lt_succ_of_le (Nat.le_of_lt (ih hmem))
        · rw [if_neg hqa]
          exact ih hmem

lemma unvis_anti {ns vis vis' : List Nat} (h : ∀ x ∈ vis, x ∈ vis') :
    unvis ns vis' ≤ unvis ns vis := by
  unfold unvis
  refine filter_length_mono ?_ ns
  intro x hx
  simp only [decide_eq_true_eq] at hx ⊢
  exact fun hm => hx (h x hm)

lemma unvis_insert {ns vis : List Nat} {u : Nat} (hu : u ∈ ns) (huv : u ∉ vis) :
    unvis ns (vis ++ [u]) < unvis ns vis := by
  unfold unvis
  refine filter_length_strict ?_ hu ?_ ?_
  · intro x hx
    simp only [decide_eq_true_eq] at hx ⊢
    exact fun hm => hx (List.mem_append_left _ hm)
  · simp
  · simpa using huv

lemma dfsNode_closed (adjOf : Nat → List Nat) (ns : List Nat)
    (Hsub : ∀ w v, v ∈ adjOf w → v ∈ ns) :
    ∀ (fuel u : Nat) (vis : List Nat), unvis ns vis < fuel → u ∈ ns →
      ∀ w ∈ dfsNode adjOf fuel u vis, w ∉ vis →
        ∀ v ∈ adjOf w, v ∈ dfsNode adjOf fuel u vis := by
  intro fuel
  induction fuel with
  | zero => intro u vis hc; omega
  | succ fuel ih =>
    intro u vis hc hu
    by_cases huv : u ∈ vis
    · rw [dfsNode_visited huv]
      intro w hw hwv
      exact absurd hw hwv
    · have hcount : unvis ns (vis ++ [u]) < fuel := by
        have := unvis_insert hu huv
        omega
      have hinner : ∀ (cs vs : List Nat),
          (∀ c ∈ cs, c ∈ ns) →
          unvis ns vs < fuel →
          (∀ w ∈ vs, w ∉ vis → w ≠ u → ∀ v ∈ adjOf w, v ∈ vs) →
          (∀ w ∈ cs.foldl (fun a v => dfsNode adjOf fuel v a) vs, w ∉ vis → w ≠ u →
            ∀ v ∈ adjOf w, v ∈ cs.foldl (fun a v => dfsNode adjOf fuel v a) vs) ∧
          (∀ c ∈ cs, c ∈ cs.foldl (fun a v => dfsNode adjOf fuel v a) vs) := by
        intro cs
        induction cs with
        | nil =>
          intro vs _ _ hclo
          exact ⟨fun w hw h1 h2 => hclo w hw h1 h2, by simp⟩
        | cons c cs ihc =>
          intro vs hcs hvfuel hclo
          simp only [List.foldl_cons]
          obtain ⟨e1, he1⟩ := dfsNode_shape adjOf fuel c vs
          have hcn : c ∈ ns := hcs c (List.mem_cons_self c cs)
          have hchild : ∀ w ∈ dfsNode adjOf fuel c vs, w ∉ vs →
              ∀ v ∈ adjOf w, v ∈ dfsNode adjOf fuel c vs := ih c vs hvfuel hcn
          have hsubvs : ∀ x ∈ vs, x ∈ dfsNode adjOf fuel c vs := by
            intro x hx
            rw [he1]
            exact List.mem_append_left _ hx
          have hclo' : ∀ w ∈ dfsNode adjOf fuel c vs, w ∉ vis → w ≠ u →
              ∀ v ∈ adjOf w, v ∈ dfsNode adjOf fuel c vs := by
            intro w hw h1 h2 v hv
            by_cases hwvs : w ∈ vs
            · exact hsubvs _ (hclo w hwvs h1 h2 v hv)
            · exact hchild w hw hwvs v hv
          have hvfuel' : unvis ns (dfsNode adjOf fuel c vs) < fuel :=
            lt_of_le_of_lt (unvis_anti hsubvs) hvfuel
          obtain ⟨hf1, hf2⟩ := ihc (dfsNode adjOf fuel c vs)
            (fun c' hc' => hcs c' (List.mem_cons_of_mem _ hc')) hvfuel' hclo'
          refine ⟨hf1, ?_⟩
          intro c' hc'
          rcases List.mem_cons.mp hc' with heq | hmem
          · subst heq
            have hstart : c' ∈ dfsNode adjOf fuel c' vs := dfsNode_start (by omega)
            obtain ⟨e2, he2⟩ := dfsFold_shape adjOf fuel cs (dfsNode adjOf fuel c' vs)
            rw [he2]
            exact List.mem_append_left _ hstart
          · exact hf2 c' hmem
      intro w hw hwv
      simp only [dfsNode, huv, if_false] at hw ⊢
      have hclo0 : ∀ w' ∈ vis ++ [u], w' ∉ vis → w' ≠ u →
          ∀ v ∈ adjOf w', v ∈ vis ++ [u] := by
        intro w' hw' h1 h2
        rcases List.mem_append.mp hw' with hm | hm
        · exact absurd hm h1
        · exact absurd (List.mem_singleton.mp hm) h2
      obtain ⟨hf1, hf2⟩ := hinner (adjOf u) (vis ++ [u])
        (fun c hc => Hsub u c hc) hcount hclo0
      by_cases hwu : w = u
      · subst hwu
        intro v hv
        exact hf2 v hv
      · exact hf1 w hw hwv hwu

/-! ### Forest lemmas -/

lemma dfsFold_mem_starts (adjOf : Nat → List Nat) {fuel : Nat} (hf : 0 < fuel) :
    ∀ (starts vis : List Nat) (x : Nat), (x ∈ vis ∨ x ∈ starts) →
      x ∈ starts.foldl (fun a u => dfsNode adjOf fuel u a) vis := by
  intro starts
  induction starts with
  | nil =>
    intro vis x hx
    rcases hx with hx | hx
    · exact hx
    · cases hx
  | cons s ss ih =>
    intro vis x hx
    simp only [List.foldl_cons]
    rcases hx with hx | hx
    · exact ih _ x (Or.inl (dfsNode_mono x hx))
    · rcases List.mem_cons.mp hx with heq | hmem
      · subst heq
        exact ih _ x (Or.inl (dfsNode_start hf))
      · exact ih _ x (Or.inr hmem)

lemma dfsForest_mem (ns : List Nat) (adjOf : Nat → List Nat) :
    ∀ x ∈ ns, x ∈ dfsForest ns adjOf := by
  intro x hx
  exact dfsFold_mem_starts adjOf (by omega) ns [] x (Or.inr hx)

lemma dfsForest_subset (ns : List Nat) (adjOf : Nat → List Nat)
    (Hsub : ∀ w v, v ∈ adjOf w → v ∈ ns) :
    ∀ x ∈ dfsForest ns adjOf, x ∈ ns := by
  unfold dfsForest
  have hfold : ∀ (starts vis : List Nat), (∀ c ∈ starts, c ∈ ns) →
      (∀ y ∈ vis, y ∈ ns) →
      ∀ y ∈ starts.foldl (fun a u => dfsNode adjOf (ns.length + 1) u a) vis, y ∈ ns := by
    intro starts
    induction starts with
    | nil => intro vis _ hvis y hy; exact hvis y hy
    | cons s ss ih =>
      intro vis hst hvis y hy
      simp only [List.foldl_cons] at hy
      refine ih _ (fun c hc => hst c (List.mem_cons_of_mem _ hc)) ?_ y hy
      intro z hz
      rcases dfsNode_subset adjOf ns Hsub _ s vis (hst s (List.mem_cons_self s ss)) z hz with
        hz' | hz'
      · exact hvis z hz'
      · exact hz'
  exact hfold ns [] (fun c hc => hc) (by simp)

lemma dfsForest_nodup (ns : List Nat) (adjOf : Nat → List Nat) :
    (dfsForest ns adjOf).Nodup := by
  unfold dfsForest
  have hfold : ∀ (starts vis : List Nat), vis.Nodup →
      (starts.foldl (fun a u => dfsNode adjOf (ns.length + 1) u a) vis).Nodup := by
    intro starts
    induction starts with
    | nil => intro vis hv; exact hv
    | cons s ss ih =>
      intro vis hv
      simp only [List.foldl_cons]
      exact ih _ (dfsNode_nodup adjOf _ s vis hv)
  exact hfold ns [] List.nodup_nil

lemma dfsFold_noop {adjOf : Nat → List Nat} {fuel : Nat} :
    ∀ (starts vis : List Nat), (∀ s ∈ starts, s ∈ vis) →
      starts.foldl (fun a u => dfsNode adjOf fuel u a) vis = vis := by
  intro starts
  induction starts with
  | nil => intro vis _; rfl
  | cons s ss ih =>
    intro vis hst
    simp only [List.foldl_cons]
    rw [dfsNode_visited (hst s (List.mem_cons_self s ss))]
    exact ih vis (fun s' hs' => hst s' (List.mem_cons_of_mem _ hs'))

lemma dfsForest_cons_shape (h : Nat) (t : List Nat) (adjOf : Nat → List Nat) :
    ∃ ext, dfsForest (h :: t) adjOf =
      dfsNode adjOf ((h :: t).length + 1) h [] ++ ext := by
  unfold dfsForest
  simp only [List.foldl_cons]
  obtain ⟨e, he⟩ := dfsFold_shape adjOf ((h :: t).length + 1) t
    (dfsNode adjOf ((h :: t).length + 1) h [])
  exact ⟨e, by rw [he]⟩

lemma dfsForest_connected (h : Nat) (t : List Nat) (adjOf : Nat → List Nat)
    (hall : ∀ x ∈ h :: t, x ∈ dfsNode adjOf ((h :: t).length + 1) h []) :
    dfsForest (h :: t) adjOf = dfsNode adjOf ((h :: t).length + 1) h [] := by
  unfold dfsForest
  simp only [List.foldl_cons]
  have hnil : dfsNode adjOf ((h :: t).length + 1) h [] =
      dfsNode adjOf ((h :: t).length + 1) h [] := rfl
  exact dfsFold_noop t _ (fun s hs => hall s (List.mem_cons_of_mem _ hs))

/-! ### Chain-split lemmas -/

lemma chainSplit_linked {rag : Rag} :
    ∀ {xs acc : List Nat}, LinkedOrd rag acc xs → chainSplit rag acc xs = (xs, none) := by
  intro xs
  induction xs with
  | nil => intro acc _; rfl
  | cons x xs ih =>
    intro acc h
    obtain ⟨⟨y, hy, hyx⟩, hrest⟩ := h
    have hl : linkedTo rag acc x = true := by
      unfold linkedTo
      rw [List.any_eq_true]
      exact ⟨y, hy, hyx⟩
    simp only [chainSplit, hl, if_true, ih hrest]

lemma chainSplit_break {rag : Rag} {x : Nat} :
    ∀ {l1 l2 acc : List Nat}, LinkedOrd rag acc l1 →
      linkedTo rag (acc ++ l1) x = false →
      chainSplit rag acc (l1 ++ x :: l2) = (l1, some x) := by
  intro l1
  induction l1 with
  | nil =>
    intro l2 acc _ hnl
    have : linkedTo rag acc x = false := by simpa using hnl
    simp only [List.nil_append, chainSplit, this, Bool.false_eq_true, if_false]
  | cons y ys ih =>
    intro l2 acc h hnl
    obtain ⟨⟨z, hz, hzy⟩, hrest⟩ := h
    have hl : linkedTo rag acc y = true := by
      unfold linkedTo
      rw [List.any_eq_true]
      exact ⟨z, hz, hzy⟩
    have hnl' : linkedTo rag (acc ++ [y] ++ ys) x = false := by
      have : acc ++ [y] ++ ys = acc ++ y :: ys := by simp
      rw [this]
      exact hnl
    simp only [List.cons_append, chainSplit, hl, if_true]
    simp only [List.append_eq]
    rw [ih hrest hnl']

/-! ### Adjacency transfer along a merge chain -/

lemma adjacentb_iff {rag : Rag} {u v : Nat} :
    rag.adjacentb u v = true ↔
      u ≠ v ∧ ∃ pq ∈ rag.origAdj,
        (rag.highest_ancestor pq.1 = u ∧ rag.highest_ancestor pq.2 = v) ∨
        (rag.highest_ancestor pq.1 = v ∧ rag.highest_ancestor pq.2 = u) := by
  unfold Rag.adjacentb
  rw [Bool.and_eq_true, List.any_eq_true]
  simp

lemma root_shift_eq_s0 {R G0 : Rag} {s0 : Nat} {S : List Nat}
    (hG0 : G0.wfb = true)
    (Hroot : ∀ z, z < G0.nextId →
      R.highest_ancestor z =
        if G0.highest_ancestor z ∈ S then s0 else G0.highest_ancestor z)
    (Hs0 : s0 ∈ S ∨ G0.nextId ≤ s0)
    {p : Nat} (hp : p < G0.nextId) :
    R.highest_ancestor p = s0 ↔ G0.highest_ancestor p ∈ S := by
  constructor
  · intro h
    by_contra hns
    rw [Hroot p hp, if_neg hns] at h
    rcases Hs0 with hin | hge
    · exact hns (h ▸ hin)
    · have := G0.root_lt hG0 hp
      omega
  · intro h
    rw [Hroot p hp, if_pos h]

lemma root_shift_eq_other {R G0 : Rag} {s0 : Nat} {S : List Nat}
    (Hroot : ∀ z, z < G0.nextId →
      R.highest_ancestor z =
        if G0.highest_ancestor z ∈ S then s0 else G0.highest_ancestor z)
    {x : Nat} (hxS : x ∉ S) (hxs0 : x ≠ s0)
    {q : Nat} (hq : q < G0.nextId) :
    R.highest_ancestor q = x ↔ G0.highest_ancestor q = x := by
  constructor
  · intro h
    by_cases hs : G0.highest_ancestor q ∈ S
    · rw [Hroot q hq, if_pos hs] at h
      exact absurd h.symm hxs0
    · rwa [Hroot q hq, if_neg hs] at h
  · intro h
    rw [Hroot q hq, if_neg (h ▸ hxS), h]

lemma chain_adj {R G0 : Rag} {s0 : Nat} {S : List Nat}
    (hG0 : G0.wfb = true)
    (Hadj : R.origAdj = G0.origAdj)
    (Hroot : ∀ z, z < G0.nextId →
      R.highest_ancestor z =
        if G0.highest_ancestor z ∈ S then s0 else G0.highest_ancestor z)
    (Hs0 : s0 ∈ S ∨ G0.nextId ≤ s0)
    {x : Nat} (hxS : x ∉ S) (hxs0 : x ≠ s0) :
    R.adjacentb s0 x = linkedTo G0 S x := by
  obtain ⟨_, hadjb, _, _⟩ := G0.wfb_parts hG0
  have hpq_lt : ∀ pq ∈ G0.origAdj, pq.1 < G0.nextId ∧ pq.2 < G0.nextId := by
    intro pq hpq
    obtain ⟨h1, h2⟩ := hadjb pq hpq
    obtain ⟨hle, _, _, _⟩ := G0.wfb_parts hG0
    exact ⟨by omega, by omega⟩
  by_cases h : R.adjacentb s0 x = true
  · rw [h]
    obtain ⟨hne, pq, hpq, hor⟩ := adjacentb_iff.mp h
    rw [Hadj] at hpq
    obtain ⟨hl1, hl2⟩ := hpq_lt pq hpq
    symm
    unfold linkedTo
    rw [List.any_eq_true]
    rcases hor with ⟨ha1, ha2⟩ | ⟨ha1, ha2⟩
    · have hyS : G0.highest_ancestor pq.1 ∈ S :=
        (root_shift_eq_s0 hG0 Hroot Hs0 hl1).mp ha1
      have hqx : G0.highest_ancestor pq.2 = x :=
        (root_shift_eq_other Hroot hxS hxs0 hl2).mp ha2
      refine ⟨G0.highest_ancestor pq.1, hyS, ?_⟩
      rw [adjacentb_iff]
      refine ⟨fun hcontra => hxS (hcontra ▸ hyS), pq, hpq, Or.inl ⟨rfl, hqx⟩⟩
    · have hyS : G0.highest_ancestor pq.2 ∈ S :=
        (root_shift_eq_s0 hG0 Hroot Hs0 hl2).mp ha2
      have hqx : G0.highest_ancestor pq.1 = x :=
        (root_shift_eq_other Hroot hxS hxs0 hl1).mp ha1
      refine ⟨G0.highest_ancestor pq.2, hyS, ?_⟩
      rw [adjacentb_iff]
      refine ⟨fun hcontra => hxS (hcontra ▸ hyS), pq, hpq, Or.inr ⟨hqx, rfl⟩⟩
  · rw [Bool.not_eq_true] at h
    rw [h]
    symm
    rw [Bool.eq_false_iff]
    intro hlink
    unfold linkedTo at hlink
    rw [List.any_eq_true] at hlink
    obtain ⟨y, hyS, hyadj⟩ := hlink
    obtain ⟨hne, pq, hpq, hor⟩ := adjacentb_iff.mp hyadj
    obtain ⟨hl1, hl2⟩ := hpq_lt pq hpq
    apply absurd _ (Bool.eq_false_iff.mp h)
    rw [adjacentb_iff]
    refine ⟨Ne.symm hxs0, pq, Hadj ▸ hpq, ?_⟩
    rcases hor with ⟨ha1, ha2⟩ | ⟨ha1, ha2⟩
    · exact Or.inl ⟨(root_shift_eq_s0 hG0 Hroot Hs0 hl1).mpr (ha1 ▸ hyS),
        (root_shift_eq_other Hroot hxS hxs0 hl2).mpr ha2⟩
    · exact Or.inr ⟨(root_shift_eq_other Hroot hxS hxs0 hl1).mpr ha1,
        (root_shift_eq_s0 hG0 Hroot Hs0 hl2).mpr (ha2 ▸ hyS)⟩

lemma merge_nodes_fields (rag : Rag) (a b : Nat) :
    ((rag.merge_nodes a b).1).nfrag = rag.nfrag ∧
    ((rag.merge_nodes a b).1).origAdj = rag.origAdj ∧
    ((rag.merge_nodes a b).1).boundary_body = rag.boundary_body ∧
    ((rag.merge_nodes a b).1).exclTags = rag.exclTags ∧
    ((rag.merge_nodes a b).1).nextId = rag.nextId + 1 ∧
    (rag.merge_nodes a b).2 = rag.nextId :=
  ⟨rfl, rfl, rfl, rfl, rfl, rfl⟩

/-- Central characterization of the `learn_merge` loop: relative to the
pre-loop graph `G0`, with `S` the already-merged selection members and `s0`
the accumulated merge node, the loop succeeds exactly on the prefix of the
traversal order that is linked to the nodes before it, appends one history
entry, feature vector and MERGE label per linked node, and raises
`KeyError` at the first unlinked node. -/
lemma mergeChain_core :
    ∀ (rest : List Nat) (st : Solver) (s0 : Nat) (S : List Nat) (G0 : Rag),
      G0.wfb = true →
      st.rag.wfb = true →
      st.rag.origAdj = G0.origAdj →
      G0.nextId ≤ st.rag.nextId →
      (∀ z, z < G0.nextId →
        st.rag.highest_ancestor z =
          if G0.highest_ancestor z ∈ S then s0 else G0.highest_ancestor z) →
      st.rag.highest_ancestor s0 = s0 →
      s0 < st.rag.nextId →
      (s0 ∈ S ∨ G0.nextId ≤ s0) →
      (∀ y ∈ S, y < G0.nextId) →
      (∀ x ∈ rest, x < G0.nextId ∧ x ∉ S ∧ x ≠ s0) →
      rest.Nodup →
      (mergeChain st s0 rest).st.history.length =
          st.history.length + (chainSplit G0 S rest).1.length ∧
      (mergeChain st s0 rest).st.features.length =
          st.features.length + (chainSplit G0 S rest).1.length ∧
      (mergeChain st s0 rest).st.targets =
          st.targets ++ List.replicate (chainSplit G0 S rest).1.length MERGE_LABEL ∧
      (mergeChain st s0 rest).st.separate = st.separate ∧
      (mergeChain st s0 rest).st.original_rag = st.original_rag ∧
      (mergeChain st s0 rest).st.policy = st.policy ∧
      (mergeChain st s0 rest).events = [] ∧
      (mergeChain st s0 rest).err =
        (if (chainSplit G0 S rest).2.isSome then some "KeyError" else none) := by
  intro rest
  induction rest with
  | nil =>
    intro st s0 S G0 _ _ _ _ _ _ _ _ _ _ _
    simp [mergeChain, chainSplit]
  | cons x xs ih =>
    intro st s0 S G0 hG0 hwf hadj hnext hroot hs0fix hs0lt hs0S hSbound hrest hnodup
    obtain ⟨hxlt, hxS, hxs0⟩ := hrest x (List.mem_cons_self x xs)
    have hadjeq : st.rag.adjacentb s0 x = linkedTo G0 S x :=
      chain_adj hG0 hadj hroot hs0S hxS hxs0
    by_cases hlink : linkedTo G0 S x = true
    · -- linked step: feature extraction succeeds, merge performed
      have hfm : feature_manager st.rag s0 x = Except.ok (s0, x) := by
        unfold feature_manager
        rw [hadjeq, hlink]
        rfl
      have hsplit : chainSplit G0 S (x :: xs) =
          ((x :: (chainSplit G0 (S ++ [x]) xs).1), (chainSplit G0 (S ++ [x]) xs).2) := by
        simp [chainSplit, hlink]
      set st1 : Solver :=
        { st with features := st.features ++ [(s0, x)],
                  history := st.history ++ [(s0, x)] } with hst1
      have hst1rag : st1.rag = st.rag := rfl
      set n := st.rag.nextId with hn
      set rag2 := (st.rag.merge_nodes s0 x).1 with hrag2
      set st2 : Solver := { st1 with rag := rag2, targets := st1.targets ++ [MERGE_LABEL] }
        with hst2
      have hmc : mergeChain st s0 (x :: xs) = mergeChain st2 n xs := by
        simp only [mergeChain, hfm]
        rfl
      -- establish the inductive hypotheses for the recursive call
      have hwf2 : st2.rag.wfb = true := st.rag.merge_wfb hwf hs0lt (by omega)
      have hadj2 : st2.rag.origAdj = G0.origAdj := by
        rw [show st2.rag = rag2 from rfl, hrag2, (merge_nodes_fields st.rag s0 x).2.1, hadj]
      have hnext2 : G0.nextId ≤ st2.rag.nextId := by
        rw [show st2.rag = rag2 from rfl, hrag2, (merge_nodes_fields st.rag s0 x).2.2.2.2.1]
        omega
      have hmergeroot := st.rag.merge_root hwf s0 x
      have hroot2 : ∀ z, z < G0.nextId →
          st2.rag.highest_ancestor z =
            if G0.highest_ancestor z ∈ S ++ [x] then n else G0.highest_ancestor z := by
        intro z hz
        have hzn : z ≠ n := by omega
        rw [show st2.rag = rag2 from rfl, hrag2, hmergeroot z]
        by_cases hzS : G0.highest_ancestor z ∈ S
        · have h1 : st.rag.highest_ancestor z = s0 := by rw [hroot z hz, if_pos hzS]
          rw [if_pos (by rw [h1]; left; rfl), if_pos (List.mem_append_left _ hzS)]
        · by_cases hzx : G0.highest_ancestor z = x
          · have h1 : st.rag.highest_ancestor z = x := by rw [hroot z hz, if_neg hzS, hzx]
            rw [if_pos (by rw [h1]; right; left; rfl),
              if_pos (List.mem_append_right _ (by simp [hzx]))]
          · have h1 : st.rag.highest_ancestor z = G0.highest_ancestor z := by
              rw [hroot z hz, if_neg hzS]
            have hns0 : st.rag.highest_ancestor z ≠ s0 := by
              intro hcontra
              exact hzS ((root_shift_eq_s0 hG0 hroot hs0S hz).mp hcontra)
            have hnx : st.rag.highest_ancestor z ≠ x := by
              rw [h1]
              exact hzx
            rw [if_neg (by rw [h1] at hns0 hnx ⊢; rintro (h | h | h)
                          <;> [exact hns0 h; exact hnx h; exact hzn h]),
              if_neg (by rw [List.mem_append]; rintro (h | h)
                          <;> [exact hzS h; exact hzx (by simpa using h)]), h1]
      have hs0fix2 : st2.rag.highest_ancestor n = n := by
        rw [show st2.rag = rag2 from rfl, hrag2, hmergeroot n]
        simp
      have hs0lt2 : n < st2.rag.nextId := by
        rw [show st2.rag = rag2 from rfl, hrag2, (merge_nodes_fields st.rag s0 x).2.2.2.2.1]
        omega
      have hs0S2 : n ∈ S ++ [x] ∨ G0.nextId ≤ n := Or.inr (by omega)
      have hSbound2 : ∀ y ∈ S ++ [x], y < G0.nextId := by
        intro y hy
        rcases List.mem_append.mp hy with hm | hm
        · exact hSbound y hm
        · rw [List.mem_singleton.mp hm]
          exact hxlt
      have hrest2 : ∀ z ∈ xs, z < G0.nextId ∧ z ∉ S ++ [x] ∧ z ≠ n := by
        intro z hz
        obtain ⟨h1, h2, _⟩ := hrest z (List.mem_cons_of_mem _ hz)
        refine ⟨h1, ?_, by omega⟩
        rw [List.mem_append]
        rintro (hm | hm)
        · exact h2 hm
        · rw [List.mem_singleton.mp hm] at hz
          exact (List.nodup_cons.mp hnodup).1 hz
      have hnodup2 : xs.Nodup := (List.nodup_cons.mp hnodup).2
      obtain ⟨ihh, ihf, iht, ihsep, ihor, ihpol, ihev, iherr⟩ :=
        ih st2 n (S ++ [x]) G0 hG0 hwf2 hadj2 hnext2 hroot2 hs0fix2 hs0lt2 hs0S2
          hSbound2 hrest2 hnodup2
      rw [hmc, hsplit]
      have hh2 : st2.history = st.history ++ [(s0, x)] := rfl
      have hf2 : st2.features = st.features ++ [(s0, x)] := rfl
      have ht2 : st2.targets = st.targets ++ [MERGE_LABEL] := rfl
      refine ⟨?_, ?_, ?_, ?_, ?_, ?_, ihev, iherr⟩
      · rw [ihh, hh2]
        simp
        omega
      · rw [ihf, hf2]
        simp
        omega
      · rw [iht, ht2, List.append_assoc]
        simp [List.replicate_succ]
      · rw [ihsep]
      · rw [ihor]
      · rw [ihpol]
    · -- unlinked: feature extraction raises KeyError, loop aborts
      have hfm : feature_manager st.rag s0 x = Except.error "KeyError" := by
        unfold feature_manager
        rw [hadjeq, Bool.eq_false_iff.mpr hlink]
        rfl
      have hsplit : chainSplit G0 S (x :: xs) = ([], some x) := by
        simp [chainSplit, Bool.eq_false_iff.mpr hlink]
      simp only [mergeChain, hfm, hsplit]
      simp

lemma dfsFold_linked (adjOf : Nat → List Nat) (rag : Rag)
    (Hadj : ∀ u v, v ∈ adjOf u → rag.adjacentb u v = true) (fuel : Nat) :
    ∀ (cs vs : List Nat), (∀ v ∈ cs, ∃ y ∈ vs, rag.adjacentb y v = true) →
      ∃ ext, cs.foldl (fun a v => dfsNode adjOf fuel v a) vs = vs ++ ext ∧
        LinkedOrd rag vs ext := by
  intro cs
  induction cs with
  | nil => intro vs _; exact ⟨[], by simp, linkedOrd_nil rag vs⟩
  | cons c cs ihc =>
    intro vs hcs
    obtain ⟨e1, he1, hl1⟩ := dfsNode_linked adjOf rag Hadj fuel c vs
      (Or.inr (hcs c (List.mem_cons_self c cs)))
    have hcs' : ∀ v ∈ cs, ∃ y ∈ vs ++ e1, rag.adjacentb y v = true := by
      intro v hv
      obtain ⟨y, hy, hyv⟩ := hcs v (List.mem_cons_of_mem _ hv)
      exact ⟨y, List.mem_append_left _ hy, hyv⟩
    obtain ⟨e2, he2, hl2⟩ := ihc (vs ++ e1) hcs'
    refine ⟨e1 ++ e2, ?_, linkedOrd_append hl1 hl2⟩
    simp only [List.foldl_cons]
    rw [he1, he2, List.append_assoc]

lemma dfsNode_root_linked (adjOf : Nat → List Nat) (rag : Rag)
    (Hadj : ∀ u v, v ∈ adjOf u → rag.adjacentb u v = true) (fuel u : Nat) :
    ∃ ext, dfsNode adjOf (fuel + 1) u [] = u :: ext ∧ LinkedOrd rag [u] ext := by
  have hch : ∀ v ∈ adjOf u, ∃ y ∈ ([u] : List Nat), rag.adjacentb y v = true :=
    fun v hv => ⟨u, List.mem_singleton.mpr rfl, Hadj u v hv⟩
  obtain ⟨ext, hext, hlink⟩ := dfsFold_linked adjOf rag Hadj fuel (adjOf u) [u] hch
  refine ⟨ext, ?_, hlink⟩
  simp only [dfsNode, List.not_mem_nil, if_false]
  simpa using hext

/-! ### Induced-subgraph helpers -/

lemma subAdjOf_spec {rag : Rag} {segset : List Nat} {u v : Nat} :
    v ∈ subAdjOf rag segset u ↔ v ∈ subNodes rag segset ∧ rag.adjacentb u v = true := by
  unfold subAdjOf
  rw [List.mem_filter]

lemma subNodes_spec {rag : Rag} {segset : List Nat} {x : Nat} :
    x ∈ subNodes rag segset ↔ x ∈ rag.liveNodes ∧ x ∈ segset := by
  unfold subNodes
  rw [List.mem_filter]
  simp

lemma liveNodes_nodup (rag : Rag) : rag.liveNodes.Nodup :=
  (List.nodup_range _).filter _

lemma subNodes_nodup (rag : Rag) (segset : List Nat) : (subNodes rag segset).Nodup :=
  (liveNodes_nodup rag).filter _

lemma subNodes_length {rag : Rag} {segset : List Nat}
    (hnd : segset.Nodup) (hlive : ∀ y ∈ segset, y ∈ rag.liveNodes) :
    (subNodes rag segset).length = segset.length := by
  apply Nat.le_antisymm
  · exact (List.subperm_of_subset (subNodes_nodup rag segset)
      (fun x hx => (subNodes_spec.mp hx).2)).length_le
  · exact (List.subperm_of_subset hnd
      (fun y hy => subNodes_spec.mpr ⟨hlive y hy, hy⟩)).length_le

lemma filter_mem_singleton {l : List Nat} {a : Nat} (hnd : l.Nodup) (ha : a ∈ l) :
    l.filter (fun x => x ∈ ([a] : List Nat)) = [a] := by
  induction l with
  | nil => cases ha
  | cons b l ih =>
    rw [List.nodup_cons] at hnd
    rcases List.mem_cons.mp ha with heq | hmem
    · subst heq
      rw [List.filter_cons_of_pos (by simp)]
      congr 1
      rw [List.filter_eq_nil]
      intro x hx
      simp only [List.mem_singleton, decide_eq_true_eq]
      intro heq
      exact hnd.1 (heq ▸ hx)
    · have hba : b ≠ a := fun heq => hnd.1 (heq ▸ hmem)
      rw [List.filter_cons_of_neg (by simp [hba])]
      exact ih hnd.2 hmem

lemma unvis_nil (ns : List Nat) : unvis ns [] = ns.length := by
  unfold unvis
  induction ns with
  | nil => rfl
  | cons a ns ih => simpa using ih

/-! ### The traversal order of `learn_merge` -/

lemma ordered_facts (st : Solver) (segset : List Nat) :
    (∀ x ∈ dfsForest (subNodes st.rag segset) (subAdjOf st.rag segset),
        x ∈ subNodes st.rag segset) ∧
    (∀ x ∈ subNodes st.rag segset,
        x ∈ dfsForest (subNodes st.rag segset) (subAdjOf st.rag segset)) ∧
    (dfsForest (subNodes st.rag segset) (subAdjOf st.rag segset)).Nodup ∧
    (dfsForest (subNodes st.rag segset) (subAdjOf st.rag segset)).length =
      (subNodes st.rag segset).length := by
  have Hsub : ∀ w v, v ∈ subAdjOf st.rag segset w → v ∈ subNodes st.rag segset :=
    fun w v hv => (subAdjOf_spec.mp hv).1
  refine ⟨dfsForest_subset _ _ Hsub, dfsForest_mem _ _, dfsForest_nodup _ _, ?_⟩
  apply Nat.le_antisymm
  · exact (List.subperm_of_subset (dfsForest_nodup _ _)
      (dfsForest_subset _ _ Hsub)).length_le
  · exact (List.subperm_of_subset (subNodes_nodup _ _) (dfsForest_mem _ _)).length_le

/-- Instantiation of `mergeChain_core` at the start of the loop, where the
accumulated node is the traversal's first node and nothing has merged yet. -/
lemma mergeChain_start (st : Solver) (h : Nat) (rest : List Nat)
    (hwf : st.rag.wfb = true)
    (hhfix : st.rag.highest_ancestor h = h) (hhlt : h < st.rag.nextId)
    (hrest : ∀ x ∈ rest, x < st.rag.nextId ∧ x ≠ h)
    (hnodup : rest.Nodup) :
    (mergeChain st h rest).st.history.length =
        st.history.length + (chainSplit st.rag [h] rest).1.length ∧
    (mergeChain st h rest).st.features.length =
        st.features.length + (chainSplit st.rag [h] rest).1.length ∧
    (mergeChain st h rest).st.targets =
        st.targets ++ List.replicate (chainSplit st.rag [h] rest).1.length MERGE_LABEL ∧
    (mergeChain st h rest).st.separate = st.separate ∧
    (mergeChain st h rest).st.original_rag = st.original_rag ∧
    (mergeChain st h rest).st.policy = st.policy ∧
    (mergeChain st h rest).events = [] ∧
    (mergeChain st h rest).err =
      (if (chainSplit st.rag [h] rest).2.isSome then some "KeyError" else none) := by
  refine mergeChain_core rest st h [h] st.rag hwf hwf rfl le_rfl ?_ hhfix hhlt
    (Or.inl (List.mem_singleton.mpr rfl)) ?_ ?_ hnodup
  · intro z _
    by_cases hc : st.rag.highest_ancestor z ∈ ([h] : List Nat)
    · rw [if_pos hc]
      exact List.mem_singleton.mp hc
    · rw [if_neg hc]
  · intro y hy
    rw [List.mem_singleton.mp hy]
    exact hhlt
  · intro x hx
    obtain ⟨h1, h2⟩ := hrest x hx
    exact ⟨h1, by simpa using h2, h2⟩

/-- Claim C3: a merge whose ids resolve to a connected set of `k` distinct
current segments appends exactly `k - 1` history entries and `k - 1`
MERGE-labeled training examples, and raises nothing. -/
theorem learn_merge_connected_chain (st : Solver) (segments : List Nat) (k : Nat)
    (hwf : st.rag.wfb = true)
    (hvalid : ∀ s ∈ segments, s < st.rag.nextId)
    (hconn : Connectedb st.rag ((segments.map st.rag.highest_ancestor).dedup) = true)
    (hk : ((segments.map st.rag.highest_ancestor).dedup).length = k)
    (hk2 : 2 ≤ k) :
    (st.learn_merge segments).err = none ∧
    (st.learn_merge segments).st.history.length = st.history.length + (k - 1) ∧
    (st.learn_merge segments).st.features.length = st.features.length + (k - 1) ∧
    (st.learn_merge segments).st.targets =
      st.targets ++ List.replicate (k - 1) MERGE_LABEL ∧
    (st.learn_merge segments).st.separate = st.separate := by
  have hlive : ∀ y ∈ (segments.map st.rag.highest_ancestor).dedup, y ∈ st.rag.liveNodes := by
    intro y hy
    obtain ⟨s, hs, rfl⟩ := List.mem_map.mp (List.mem_dedup.mp hy)
    exact st.rag.root_live hwf (hvalid s hs)
  have hsublen : (subNodes st.rag ((segments.map st.rag.highest_ancestor).dedup)).length = k :=
    (subNodes_length (List.nodup_dedup _) hlive).trans hk
  cases hsub : subNodes st.rag ((segments.map st.rag.highest_ancestor).dedup) with
  | nil => rw [hsub] at hsublen; simp at hsublen; omega
  | cons h t =>
    have Hadj : ∀ u v, v ∈ subAdjOf st.rag ((segments.map st.rag.highest_ancestor).dedup) u →
        st.rag.adjacentb u v = true := fun u v hv => (subAdjOf_spec.mp hv).2
    have Hsub : ∀ w v, v ∈ subAdjOf st.rag ((segments.map st.rag.highest_ancestor).dedup) w →
        v ∈ subNodes st.rag ((segments.map st.rag.highest_ancestor).dedup) :=
      fun w v hv => (subAdjOf_spec.mp hv).1
    have hall : ∀ x ∈ h :: t,
        x ∈ dfsNode (subAdjOf st.rag ((segments.map st.rag.highest_ancestor).dedup))
          ((h :: t).length + 1) h [] := by
      unfold Connectedb at hconn
      rw [hsub] at hconn
      simpa [List.all_eq_true] using hconn
    obtain ⟨ext, ht1, hlink⟩ := dfsNode_root_linked
      (subAdjOf st.rag ((segments.map st.rag.highest_ancestor).dedup)) st.rag Hadj
      ((h :: t).length) h
    have hforest : dfsForest (h :: t)
        (subAdjOf st.rag ((segments.map st.rag.highest_ancestor).dedup)) = h :: ext := by
      rw [dfsForest_connected h t _ hall, ht1]
    have hlm : st.learn_merge segments = mergeChain st h ext := by
      unfold Solver.learn_merge
      rw [hsub, hforest]
    have hhsub : h ∈ subNodes st.rag ((segments.map st.rag.highest_ancestor).dedup) := by
      rw [hsub]; exact List.mem_cons_self h t
    obtain ⟨hhlive, hhseg⟩ := subNodes_spec.mp hhsub
    obtain ⟨hhlt, hhfix⟩ := Rag.live_facts hhlive
    have ht1sub : ∀ x ∈ h :: ext,
        x ∈ subNodes st.rag ((segments.map st.rag.highest_ancestor).dedup) := by
      intro x hx
      rw [← ht1] at hx
      rcases dfsNode_subset _ _ Hsub _ h [] hhsub x hx with hc | hc
      · cases hc
      · exact hc
    have ht1nodup : (h :: ext).Nodup := by
      rw [← ht1]
      exact dfsNode_nodup _ _ h [] List.nodup_nil
    have hextlen : ext.length = k - 1 := by
      obtain ⟨_, _, _, hlen⟩ :=
        ordered_facts st ((segments.map st.rag.highest_ancestor).dedup)
      rw [hsub, hforest] at hlen
      rw [hsub] at hsublen
      simp at hlen hsublen
      omega
    have hrestfacts : ∀ x ∈ ext, x < st.rag.nextId ∧ x ≠ h := by
      intro x hx
      have hxsub := ht1sub x (List.mem_cons_of_mem _ hx)
      obtain ⟨hxlive, _⟩ := subNodes_spec.mp hxsub
      refine ⟨(Rag.live_facts hxlive).1, ?_⟩
      intro heq
      exact (List.nodup_cons.mp ht1nodup).1 (heq ▸ hx)
    obtain ⟨hh, hf, htg, hsep, _, _, _, herr⟩ :=
      mergeChain_start st h ext hwf hhfix hhlt hrestfacts (List.nodup_cons.mp ht1nodup).2
    rw [chainSplit_linked hlink] at hh hf htg herr
    rw [hlm]
    rw [hextlen] at hh hf htg
    exact ⟨by simpa using herr, hh, hf, htg, hsep⟩

/-- Claim C10: a merge whose ids all resolve to one and the same current
highest ancestor is a complete no-op: state unchanged, no events, no
exception. -/
theorem learn_merge_singleton_noop (st : Solver) (segments : List Nat) (a : Nat)
    (hwf : st.rag.wfb = true)
    (hvalid : ∀ s ∈ segments, s < st.rag.nextId)
    (hdedup : (segments.map st.rag.highest_ancestor).dedup = [a]) :
    st.learn_merge segments = ⟨st, [], none⟩ := by
  have hamem : a ∈ (segments.map st.rag.highest_ancestor).dedup := by
    rw [hdedup]
    exact List.mem_singleton.mpr rfl
  obtain ⟨s, hs, hsa⟩ := List.mem_map.mp (List.mem_dedup.mp hamem)
  have halive : a ∈ st.rag.liveNodes := hsa ▸ st.rag.root_live hwf (hvalid s hs)
  have hsub : subNodes st.rag ((segments.map st.rag.highest_ancestor).dedup) = [a] := by
    unfold subNodes
    rw [hdedup]
    exact filter_mem_singleton (liveNodes_nodup st.rag) halive
  have hadja : subAdjOf st.rag ((segments.map st.rag.highest_ancestor).dedup) a = [] := by
    unfold subAdjOf
    rw [hsub]
    simp [Rag.adjacentb]
  have hforest : dfsForest (subNodes st.rag ((segments.map st.rag.highest_ancestor).dedup))
      (subAdjOf st.rag ((segments.map st.rag.highest_ancestor).dedup)) = [a] := by
    rw [hsub]
    unfold dfsForest
    simp [dfsNode, hadja]
  unfold Solver.learn_merge
  rw [hforest]
  rfl

/-- Claim C1 (amended): a merge whose resolved selection induces a
disconnected subgraph raises `KeyError` from feature extraction at the
first node outside the traversal's first tree; the entries for the first
tree's pairs (its size minus one) are already appended when the exception
propagates, so the graph never merges non-adjacent regions but the logs
are not necessarily unchanged. -/
theorem learn_merge_disconnected (st : Solver) (segments : List Nat) (h : Nat) (t : List Nat)
    (hwf : st.rag.wfb = true)
    (hsub : subNodes st.rag ((segments.map st.rag.highest_ancestor).dedup) = h :: t)
    (hdisc : Connectedb st.rag ((segments.map st.rag.highest_ancestor).dedup) = false) :
    (st.learn_merge segments).err = some "KeyError" ∧
    (st.learn_merge segments).st.history.length =
      st.history.length +
        ((dfsNode (subAdjOf st.rag ((segments.map st.rag.highest_ancestor).dedup))
          ((h :: t).length + 1) h []).length - 1) ∧
    (st.learn_merge segments).st.features.length =
      st.features.length +
        ((dfsNode (subAdjOf st.rag ((segments.map st.rag.highest_ancestor).dedup))
          ((h :: t).length + 1) h []).length - 1) ∧
    (st.learn_merge segments).st.targets =
      st.targets ++ List.replicate
        ((dfsNode (subAdjOf st.rag ((segments.map st.rag.highest_ancestor).dedup))
          ((h :: t).length + 1) h []).length - 1) MERGE_LABEL ∧
    (st.learn_merge segments).st.separate = st.separate := by
  have Hadj : ∀ u v, v ∈ subAdjOf st.rag ((segments.map st.rag.highest_ancestor).dedup) u →
      st.rag.adjacentb u v = true := fun u v hv => (subAdjOf_spec.mp hv).2
  have Hsub : ∀ w v, v ∈ subAdjOf st.rag ((segments.map st.rag.highest_ancestor).dedup) w →
      v ∈ subNodes st.rag ((segments.map st.rag.highest_ancestor).dedup) :=
    fun w v hv => (subAdjOf_spec.mp hv).1
  obtain ⟨ext, ht1, hlink⟩ := dfsNode_root_linked
    (subAdjOf st.rag ((segments.map st.rag.highest_ancestor).dedup)) st.rag Hadj
    ((h :: t).length) h
  have hhsub : h ∈ subNodes st.rag ((segments.map st.rag.highest_ancestor).dedup) := by
    rw [hsub]
    exact List.mem_cons_self h t
  -- some selected node is missed by the first tree
  have hnotall : ∃ m ∈ h :: t,
      m ∉ dfsNode (subAdjOf st.rag ((segments.map st.rag.highest_ancestor).dedup))
        ((h :: t).length + 1) h [] := by
    by_contra hcon
    push_neg at hcon
    have : Connectedb st.rag ((segments.map st.rag.highest_ancestor).dedup) = true := by
      unfold Connectedb
      rw [hsub]
      rw [List.all_eq_true]
      intro x hx
      simpa using hcon x hx
    rw [hdisc] at this
    cases this
  obtain ⟨m, hm, hmnot⟩ := hnotall
  obtain ⟨ext2, hforest⟩ := dfsForest_cons_shape h t
    (subAdjOf st.rag ((segments.map st.rag.highest_ancestor).dedup))
  have hmforest : m ∈ dfsForest (h :: t)
      (subAdjOf st.rag ((segments.map st.rag.highest_ancestor).dedup)) :=
    dfsForest_mem _ _ m hm
  have hmext2 : m ∈ ext2 := by
    rw [hforest] at hmforest
    rcases List.mem_append.mp hmforest with hc | hc
    · exact absurd hc hmnot
    · exact hc
  cases hext2 : ext2 with
  | nil => rw [hext2] at hmext2; cases hmext2
  | cons m0 ext2' =>
    have hforest2 : dfsForest (h :: t)
        (subAdjOf st.rag ((segments.map st.rag.highest_ancestor).dedup)) =
          h :: (ext ++ m0 :: ext2') := by
      rw [hforest, ht1, hext2]
      rfl
    have hfnodup : (h :: (ext ++ m0 :: ext2')).Nodup := by
      rw [← hforest2]
      exact dfsForest_nodup _ _
    have hfsub : ∀ x ∈ h :: (ext ++ m0 :: ext2'),
        x ∈ subNodes st.rag ((segments.map st.rag.highest_ancestor).dedup) := by
      intro x hx
      rw [← hforest2] at hx
      have hx2 := dfsForest_subset (h :: t) _ (fun w v hv => hsub ▸ Hsub w v hv) x hx
      rw [hsub]
      exact hx2
    -- m0 is not in the first tree
    have hm0not : m0 ∉ dfsNode (subAdjOf st.rag ((segments.map st.rag.highest_ancestor).dedup))
        ((h :: t).length + 1) h [] := by
      intro hc
      have hnd := hfnodup
      rw [ht1] at hc
      rw [List.nodup_cons] at hnd
      rcases List.mem_cons.mp hc with heq | hmem
      · exact hnd.1 (heq ▸ List.mem_append_right _ (List.mem_cons_self m0 ext2'))
      · have := (List.nodup_append.mp hnd.2).2.2
        exact this hmem (List.mem_cons_self m0 ext2')
    -- the first tree is closed under subgraph adjacency
    have hfuel : unvis (subNodes st.rag ((segments.map st.rag.highest_ancestor).dedup)) [] <
        (h :: t).length + 1 := by
      rw [unvis_nil, hsub]
      omega
    have hclosed := dfsNode_closed
      (subAdjOf st.rag ((segments.map st.rag.highest_ancestor).dedup))
      (subNodes st.rag ((segments.map st.rag.highest_ancestor).dedup)) Hsub
      ((h :: t).length + 1) h [] hfuel hhsub
    have hm0sub : m0 ∈ subNodes st.rag ((segments.map st.rag.highest_ancestor).dedup) :=
      hfsub m0 (List.mem_cons_of_mem _ (List.mem_append_right _ (List.mem_cons_self m0 ext2')))
    have hunlinked : linkedTo st.rag ([h] ++ ext) m0 = false := by
      rw [Bool.eq_false_iff]
      intro hlt
      unfold linkedTo at hlt
      rw [List.any_eq_true] at hlt
      obtain ⟨y, hy, hadjy⟩ := hlt
      have hyt1 : y ∈ dfsNode (subAdjOf st.rag ((segments.map st.rag.highest_ancestor).dedup))
          ((h :: t).length + 1) h [] := by
        rw [ht1]
        simpa using hy
      have hm0adj : m0 ∈ subAdjOf st.rag ((segments.map st.rag.highest_ancestor).dedup) y :=
        subAdjOf_spec.mpr ⟨hm0sub, hadjy⟩
      exact hm0not (hclosed y hyt1 (List.not_mem_nil y) m0 hm0adj)
    have hsplit : chainSplit st.rag [h] (ext ++ m0 :: ext2') = (ext, some m0) :=
      chainSplit_break hlink hunlinked
    have hhlive := subNodes_spec.mp hhsub
    obtain ⟨hhlt, hhfix⟩ := Rag.live_facts hhlive.1
    have hrestfacts : ∀ x ∈ ext ++ m0 :: ext2', x < st.rag.nextId ∧ x ≠ h := by
      intro x hx
      have hxsub := hfsub x (List.mem_cons_of_mem _ hx)
      obtain ⟨hxlive, _⟩ := subNodes_spec.mp hxsub
      refine ⟨(Rag.live_facts hxlive).1, ?_⟩
      intro heq
      exact (List.nodup_cons.mp hfnodup).1 (heq ▸ hx)
    obtain ⟨hh, hf, htg, hsep, _, _, _, herr⟩ :=
      mergeChain_start st h (ext ++ m0 :: ext2') hwf hhfix hhlt hrestfacts
        (List.nodup_cons.mp hfnodup).2
    rw [hsplit] at hh hf htg herr
    have hlm : st.learn_merge segments = mergeChain st h (ext ++ m0 :: ext2') := by
      unfold Solver.learn_merge
      rw [hsub, hforest2]
    have hextlen : ext.length =
        (dfsNode (subAdjOf st.rag ((segments.map st.rag.highest_ancestor).dedup))
          ((h :: t).length + 1) h []).length - 1 := by
      rw [ht1]
      simp
    rw [hlm, ← hextlen]
    exact ⟨by simpa using herr, hh, hf, htg, hsep⟩

/-- Claim C1 counterexample: on the chain graph `1 - 2 - 3 - 4`, the merge
command `{1, 2, 4}` resolves to a disconnected selection, fails with
`KeyError`, and nevertheless appends one history entry, one feature vector
and one MERGE label (the pair `(1, 2)` of the connected part), refuting
"appends no entries". -/
theorem learn_merge_disconnected_partial_append :
    Connectedb chainSolver.rag
        ((([1, 2, 4] : List Nat).map chainSolver.rag.highest_ancestor).dedup) = false ∧
    (chainSolver.learn_merge [1, 2, 4]).err = some "KeyError" ∧
    (chainSolver.learn_merge [1, 2, 4]).st.history = [(1, 2)] ∧
    (chainSolver.learn_merge [1, 2, 4]).st.features.length = 1 ∧
    (chainSolver.learn_merge [1, 2, 4]).st.targets = [MERGE_LABEL] := by
  decide

/-- Claim C7: a separation naming the boundary body is a complete no-op:
state unchanged, no events, no exception. -/
theorem learn_separation_boundary_noop (st : Solver) (f0 f1 : Nat)
    (hb : st.rag.boundary_body = f0 ∨ st.rag.boundary_body = f1) :
    st.learn_separation [f0, f1] = ⟨st, [], none⟩ := by
  simp only [Solver.learn_separation]
  rw [if_pos hb]

/-- Witness for C7 on the chain fixture: separating `(0, 3)` with boundary
body `0` changes nothing. -/
theorem learn_separation_boundary_noop_witness :
    chainSolver.learn_separation [0, 3] = ⟨chainSolver, [], none⟩ :=
  learn_separation_boundary_noop chainSolver 0 3 (by decide)

/-- Claim C5: when feature extraction fails on the separated pair, the
separation handler reports a diagnostic, appends nothing to features,
targets, or separation history, and raises nothing (the graph keeps the
`separate_fragments` un-merge, as in the source). -/
theorem learn_separation_extraction_failure (st : Solver) (f0 f1 : Nat)
    (hb : ¬(st.rag.boundary_body = f0 ∨ st.rag.boundary_body = f1))
    (hfail : ((st.rag.separate_fragments f0 f1).1).adjacentb
        (st.rag.separate_fragments f0 f1).2.1 (st.rag.separate_fragments f0 f1).2.2
        = false) :
    st.learn_separation [f0, f1] =
      ⟨{ st with rag := (st.rag.separate_fragments f0 f1).1 },
       [Event.diagnostic "failed to split segments"], none⟩ := by
  have hfm : feature_manager (st.rag.separate_fragments f0 f1).1
      (st.rag.separate_fragments f0 f1).2.1 (st.rag.separate_fragments f0 f1).2.2 =
        Except.error "KeyError" := by
    unfold feature_manager
    rw [hfail]
    rfl
  simp only [Solver.learn_separation]
  rw [if_neg hb, hfm]

/-- Witness for C5: on four fragments with boundary `3` and only the edge
`0 - 1`, separating the non-adjacent pair `(1, 2)` takes the extraction
failure branch. -/
theorem learn_separation_extraction_failure_witness :
    (Solver.init 4 [(0, 1)] 3).learn_separation [1, 2] =
      ⟨{ Solver.init 4 [(0, 1)] 3 with
          rag := ((Solver.init 4 [(0, 1)] 3).rag.separate_fragments 1 2).1 },
       [Event.diagnostic "failed to split segments"], none⟩ :=
  learn_separation_extraction_failure (Solver.init 4 [(0, 1)] 3) 1 2
    (by decide) (by decide)

/-- Shape of the merge loop independent of any well-formedness: it appends
the same number of history entries, feature vectors and MERGE labels, and
leaves the separation log and the frozen graph untouched. -/
lemma mergeChain_log_shape :
    ∀ (rest : List Nat) (st : Solver) (s0 : Nat), ∃ k,
      (mergeChain st s0 rest).st.history.length = st.history.length + k ∧
      (mergeChain st s0 rest).st.features.length = st.features.length + k ∧
      (mergeChain st s0 rest).st.targets = st.targets ++ List.replicate k MERGE_LABEL ∧
      (mergeChain st s0 rest).st.separate = st.separate ∧
      (mergeChain st s0 rest).st.original_rag = st.original_rag := by
  intro rest
  induction rest with
  | nil =>
    intro st s0
    exact ⟨0, by simp [mergeChain]⟩
  | cons x xs ih =>
    intro st s0
    unfold mergeChain
    cases hfm : feature_manager st.rag s0 x with
    | error e => exact ⟨0, by simp⟩
    | ok fv =>
      obtain ⟨k, hh, hf, ht, hs, ho⟩ := ih
        { st with rag := ((st.rag.merge_nodes s0 x).1),
                  features := st.features ++ [fv],
                  history := st.history ++ [(s0, x)],
                  targets := st.targets ++ [MERGE_LABEL] }
        (st.rag.merge_nodes s0 x).2
      refine ⟨k + 1, ?_, ?_, ?_, ?_, ?_⟩
      · rw [hh]; simp; omega
      · rw [hf]; simp; omega
      · rw [ht]
        simp [List.replicate_succ, List.append_assoc]
      · rw [hs]
      · rw [ho]

lemma learn_merge_log_shape (st : Solver) (segments : List Nat) :
    ∃ k,
      (st.learn_merge segments).st.history.length = st.history.length + k ∧
      (st.learn_merge segments).st.features.length = st.features.length + k ∧
      (st.learn_merge segments).st.targets =
        st.targets ++ List.replicate k MERGE_LABEL ∧
      (st.learn_merge segments).st.separate = st.separate ∧
      (st.learn_merge segments).st.original_rag = st.original_rag := by
  unfold Solver.learn_merge
  cases dfsForest (subNodes st.rag ((segments.map st.rag.highest_ancestor).dedup))
      (subAdjOf st.rag ((segments.map st.rag.highest_ancestor).dedup)) with
  | nil => exact ⟨0, by simp⟩
  | cons s0 rest => exact mergeChain_log_shape rest st s0

lemma learn_separation_log_shape (st : Solver) (fragments : List Nat) :
    ((st.learn_separation fragments).st.features = st.features ∧
      (st.learn_separation fragments).st.targets = st.targets ∧
      (st.learn_separation fragments).st.separate = st.separate ∧
      (st.learn_separation fragments).st.history = st.history ∧
      (st.learn_separation fragments).st.original_rag = st.original_rag) ∨
    (∃ f0 f1 fv,
      (st.learn_separation fragments).st.features = st.features ++ [fv] ∧
      (st.learn_separation fragments).st.targets = st.targets ++ [SEPAR_LABEL] ∧
      (st.learn_separation fragments).st.separate = st.separate ++ [(f0, f1)] ∧
      (st.learn_separation fragments).st.history = st.history ∧
      (st.learn_separation fragments).st.original_rag = st.original_rag) := by
  rcases fragments with _ | ⟨f0, _ | ⟨f1, _ | ⟨f2, frest⟩⟩⟩
  · left; exact ⟨rfl, rfl, rfl, rfl, rfl⟩
  · left; exact ⟨rfl, rfl, rfl, rfl, rfl⟩
  · simp only [Solver.learn_separation]
    by_cases hb : st.rag.boundary_body = f0 ∨ st.rag.boundary_body = f1
    · rw [if_pos hb]
      left
      exact ⟨rfl, rfl, rfl, rfl, rfl⟩
    · rw [if_neg hb]
      cases feature_manager (st.rag.separate_fragments f0 f1).1
          (st.rag.separate_fragments f0 f1).2.1 (st.rag.separate_fragments f0 f1).2.2 with
      | error e => left; exact ⟨rfl, rfl, rfl, rfl, rfl⟩
      | ok fv => right; exact ⟨f0, f1, fv, rfl, rfl, rfl, rfl, rfl⟩
  · left; exact ⟨rfl, rfl, rfl, rfl, rfl⟩

/-- Claim C6: the invariant `len(features) = len(targets)`, with MERGE
labels in one-to-one correspondence with merge-history entries and
SEPARATE labels with separation-history entries, is preserved by
`learn_merge` (also when it raises), by `learn_separation`, and by
`relearn`; it holds in the initial state. -/
lemma count_append_replicate_same (l : List Nat) (k : Nat) :
    List.count MERGE_LABEL (l ++ List.replicate k MERGE_LABEL) =
      List.count MERGE_LABEL l + k := by
  simp

lemma count_append_replicate_other (l : List Nat) (k : Nat) :
    List.count SEPAR_LABEL (l ++ List.replicate k MERGE_LABEL) =
      List.count SEPAR_LABEL l := by
  simp [MERGE_LABEL, SEPAR_LABEL, List.count_replicate]

lemma count_append_separ_same (l : List Nat) :
    List.count SEPAR_LABEL (l ++ [SEPAR_LABEL]) = List.count SEPAR_LABEL l + 1 := by
  simp

lemma count_append_separ_other (l : List Nat) :
    List.count MERGE_LABEL (l ++ [SEPAR_LABEL]) = List.count MERGE_LABEL l := by
  simp [MERGE_LABEL, SEPAR_LABEL]

theorem log_invariant_preserved (st : Solver) (segments fragments : List Nat)
    (hinv : LogInv st) :
    LogInv (st.learn_merge segments).st ∧
    LogInv (st.learn_separation fragments).st ∧
    LogInv st.relearn.st := by
  obtain ⟨h1, h2, h3⟩ := hinv
  refine ⟨?_, ?_, ?_⟩
  · obtain ⟨k, hh, hf, ht, hs, _⟩ := learn_merge_log_shape st segments
    have hlen : (st.learn_merge segments).st.targets.length = st.targets.length + k := by
      rw [ht]
      simp
    refine ⟨by rw [hf, hlen, h1], ?_, ?_⟩
    · rw [ht, hh, count_append_replicate_same]
      omega
    · rw [ht, hs, count_append_replicate_other]
      exact h3
  · rcases learn_separation_log_shape st fragments with
      ⟨hf, ht, hs, hh, _⟩ | ⟨f0, f1, fv, hf, ht, hs, hh, _⟩
    · exact ⟨by rw [hf, ht, h1], by rw [ht, hh, h2], by rw [ht, hs, h3]⟩
    · refine ⟨?_, ?_, ?_⟩
      · rw [hf, ht]
        simp [h1]
      · rw [ht, hh, count_append_separ_other]
        exact h2
      · rw [ht, hs, count_append_separ_same, h3]
        simp
  · exact ⟨h1, h2, h3⟩

/-- Witness for C6 at the chain fixture: the invariant holds initially and
is preserved by a merge, a separation, and a relearn. -/
theorem log_invariant_preserved_witness :
    LogInv chainSolver ∧
    (LogInv (chainSolver.learn_merge [1, 2]).st ∧
      LogInv (chainSolver.learn_separation [2, 3]).st ∧
      LogInv chainSolver.relearn.st) :=
  ⟨by decide, log_invariant_preserved chainSolver [1, 2] [2, 3] (by decide)⟩

/-- Claim C4: `produce_lookup_table` always relearns first, and `relearn`
performs, in order: train the classifier on all accumulated examples,
install the classifier-derived policy, reset the graph to a fresh copy of
the original and rebuild its merge queue, tag each recorded separation's
nodes with its exclusion id, and replay the full merge history. -/
theorem produce_lookup_table_relearns_first (st : Solver) :
    st.relearn.events =
      ([Event.train_classifier st.features st.targets, Event.install_policy,
        Event.reset_graph, Event.rebuild_merge_queue] ++
        st.separate.enum.map (fun p => Event.tag_exclusion p.1 p.2.1 p.2.2)) ++
        [Event.replay_history st.history.length] ∧
    st.relearn.err = none ∧
    st.relearn.st.policy = some ⟨st.features, st.targets⟩ ∧
    st.relearn.st.rag =
      replay_merge_history (tagExclusions st.original_rag st.separate) st.history ∧
    st.send_segmentation.events =
      st.relearn.events ++ [Event.agglomerate, Event.send_lut st.lut.1 st.lut.2] ∧
    st.send_segmentation.st.policy = st.relearn.st.policy ∧
    st.send_segmentation.err = none :=
  ⟨rfl, rfl, rfl, rfl, rfl, rfl, rfl⟩

/-! ### Lookup-table coverage -/

lemma get_map_length (rag : Rag) : rag.get_map.length = rag.nfrag := by
  simp [Rag.get_map]

lemma agglomerateAux_nfrag :
    ∀ (fuel : Nat) (rag : Rag) (clf : Classifier) (thr : Rat),
      (agglomerateAux fuel rag clf thr).nfrag = rag.nfrag := by
  intro fuel
  induction fuel with
  | zero => intro rag clf thr; rfl
  | succ fuel ih =>
    intro rag clf thr
    unfold agglomerateAux
    cases mergeCandidate rag clf thr with
    | none => rfl
    | some p => exact ih _ _ _

lemma replay_nfrag :
    ∀ (pairs : List (Nat × Nat)) (rag : Rag),
      (replay_merge_history rag pairs).nfrag = rag.nfrag := by
  intro pairs
  induction pairs with
  | nil => intro rag; rfl
  | cons p rest ih =>
    intro rag
    obtain ⟨a, b⟩ := p
    exact ih _

lemma lut_src (st : Solver) : st.lut.1 = List.range st.original_rag.nfrag := by
  have hr : st.relearn.st.rag =
      replay_merge_history (tagExclusions st.original_rag st.separate) st.history := rfl
  have hn : (st.relearn.st.rag.agglomerate ⟨st.features, st.targets⟩ (1 / 2)).nfrag =
      st.original_rag.nfrag := by
    unfold Rag.agglomerate
    rw [agglomerateAux_nfrag, hr, replay_nfrag]
    rfl
  show List.range (st.relearn.st.rag.agglomerate ⟨st.features, st.targets⟩ (1 / 2)).get_map.length =
    List.range st.original_rag.nfrag
  rw [get_map_length, hn]

lemma applyCommand_preserves_original (st : Solver) (m : Message) :
    (st.applyCommand m).original_rag = st.original_rag := by
  unfold Solver.applyCommand
  by_cases h1 : m.type = "merge"
  · rw [if_pos h1]
    obtain ⟨k, _, _, _, _, ho⟩ := learn_merge_log_shape st m.segments
    exact ho
  · rw [if_neg h1]
    by_cases h2 : m.type = "separate"
    · rw [if_pos h2]
      rcases learn_separation_log_shape st m.segments with
        ⟨_, _, _, _, ho⟩ | ⟨_, _, _, _, _, _, _, ho⟩
      · exact ho
      · exact ho
    · rw [if_neg h2]
      by_cases h3 : m.type = "request"
      · rw [if_pos h3]
        by_cases h4 : m.what = "fragment-segment-lut"
        · rw [if_pos h4]
          rfl
        · rw [if_neg h4]
      · rw [if_neg h3]

lemma runCommands_preserves_original :
    ∀ (msgs : List Message) (st : Solver),
      (st.runCommands msgs).original_rag = st.original_rag := by
  intro msgs
  induction msgs with
  | nil => intro st; rfl
  | cons m rest ih =>
    intro st
    unfold Solver.runCommands at ih ⊢
    rw [List.foldl_cons, ih, applyCommand_preserves_original]

/-- Claim C2: after any command sequence, the `fragments` sequence of the
served lookup table is exactly the original fragment id set `0 .. nfrag-1`,
each id appearing exactly once. -/
theorem lut_fragments_cover_original (nfrag : Nat) (adj : List (Nat × Nat)) (bnd : Nat)
    (msgs : List Message) :
    ((Solver.init nfrag adj bnd).runCommands msgs).lut.1 = List.range nfrag ∧
    ((Solver.init nfrag adj bnd).runCommands msgs).lut.1.Nodup ∧
    ∀ f, f ∈ ((Solver.init nfrag adj bnd).runCommands msgs).lut.1 ↔ f < nfrag := by
  have h := lut_src ((Solver.init nfrag adj bnd).runCommands msgs)
  rw [runCommands_preserves_original] at h
  have hinit : (Solver.init nfrag adj bnd).original_rag.nfrag = nfrag := rfl
  rw [hinit] at h
  refine ⟨h, ?_, ?_⟩
  · rw [h]
    exact List.nodup_range nfrag
  · intro f
    rw [h]
    exact List.mem_range

/-! ### The session loop -/

/-- Claim C8 (amended): the session loop's transitions are: a `merge`,
`separate` or `request` message whose handler raises nothing keeps the
session listening on the remaining messages; a handler exception
terminates the loop with that error, leaving the rest unread; `stop` and
any unrecognized type terminate the loop (the latter with a diagnostic)
and no further message is ever processed. -/
theorem listen_transitions (st : Solver) (m : Message) (rest : List Message) :
    (m.type = "merge" → (st.learn_merge m.segments).err = none →
      st.listen (m :: rest) =
        ⟨((st.learn_merge m.segments).st.listen rest).st,
         (st.learn_merge m.segments).events ++
           ((st.learn_merge m.segments).st.listen rest).events,
         ((st.learn_merge m.segments).st.listen rest).stopped,
         ((st.learn_merge m.segments).st.listen rest).err,
         ((st.learn_merge m.segments).st.listen rest).remaining⟩) ∧
    (∀ e, m.type = "merge" → (st.learn_merge m.segments).err = some e →
      st.listen (m :: rest) =
        ⟨(st.learn_merge m.segments).st, (st.learn_merge m.segments).events,
         false, some e, rest⟩) ∧
    (m.type = "separate" → (st.learn_separation m.segments).err = none →
      st.listen (m :: rest) =
        ⟨((st.learn_separation m.segments).st.listen rest).st,
         (st.learn_separation m.segments).events ++
           ((st.learn_separation m.segments).st.listen rest).events,
         ((st.learn_separation m.segments).st.listen rest).stopped,
         ((st.learn_separation m.segments).st.listen rest).err,
         ((st.learn_separation m.segments).st.listen rest).remaining⟩) ∧
    (∀ e, m.type = "separate" → (st.learn_separation m.segments).err = some e →
      st.listen (m :: rest) =
        ⟨(st.learn_separation m.segments).st, (st.learn_separation m.segments).events,
         false, some e, rest⟩) ∧
    (m.type = "request" → m.what = "fragment-segment-lut" →
      st.listen (m :: rest) =
        ⟨(st.send_segmentation.st.listen rest).st,
         st.send_segmentation.events ++ (st.send_segmentation.st.listen rest).events,
         (st.send_segmentation.st.listen rest).stopped,
         (st.send_segmentation.st.listen rest).err,
         (st.send_segmentation.st.listen rest).remaining⟩) ∧
    (m.type = "request" → ¬m.what = "fragment-segment-lut" →
      st.listen (m :: rest) = st.listen rest) ∧
    (m.type = "stop" → st.listen (m :: rest) = ⟨st, [], true, none, rest⟩) ∧
    (m.type ∉ (["merge", "separate", "request", "stop"] : List String) →
      st.listen (m :: rest) =
        ⟨st, [Event.diagnostic ("command " ++ m.type ++ " not recognized.")],
         true, none, rest⟩) := by
  refine ⟨?_, ?_, ?_, ?_, ?_, ?_, ?_, ?_⟩
  · intro h herr
    simp only [Solver.listen, if_pos h]
    rw [herr]
  · intro e h herr
    simp only [Solver.listen, if_pos h]
    rw [herr]
  · intro h herr
    have hm : ¬m.type = "merge" := by rw [h]; decide
    simp only [Solver.listen, if_neg hm, if_pos h]
    rw [herr]
  · intro e h herr
    have hm : ¬m.type = "merge" := by rw [h]; decide
    simp only [Solver.listen, if_neg hm, if_pos h]
    rw [herr]
  · intro h hw
    have hm : ¬m.type = "merge" := by rw [h]; decide
    have hs : ¬m.type = "separate" := by rw [h]; decide
    simp only [Solver.listen, if_neg hm, if_neg hs, if_pos h, if_pos hw]
  · intro h hw
    have hm : ¬m.type = "merge" := by rw [h]; decide
    have hs : ¬m.type = "separate" := by rw [h]; decide
    simp only [Solver.listen, if_neg hm, if_neg hs, if_pos h, if_neg hw]
  · intro h
    have hm : ¬m.type = "merge" := by rw [h]; decide
    have hs : ¬m.type = "separate" := by rw [h]; decide
    have hr : ¬m.type = "request" := by rw [h]; decide
    simp only [Solver.listen, if_neg hm, if_neg hs, if_neg hr, if_pos h]
  · intro h
    simp only [List.mem_cons, List.not_mem_nil, or_false, not_or] at h
    obtain ⟨hm, hs, hr, ht⟩ := h
    simp only [Solver.listen, if_neg hm, if_neg hs, if_neg hr, if_neg ht]

/-- Witness for the amended C8 at the chain fixture: a `stop` terminates
cleanly, an erroring merge terminates with the error leaving the rest
unread, and an unrecognized command terminates with a diagnostic. -/
theorem listen_transitions_witness :
    chainSolver.listen [⟨"stop", [], ""⟩] = ⟨chainSolver, [], true, none, []⟩ ∧
    chainSolver.listen [⟨"merge", [1, 4], ""⟩] =
      ⟨(chainSolver.learn_merge [1, 4]).st, (chainSolver.learn_merge [1, 4]).events,
       false, some "KeyError", []⟩ ∧
    chainSolver.listen [⟨"bogus", [], ""⟩] =
      ⟨chainSolver, [Event.diagnostic "command bogus not recognized."], true, none, []⟩ := by
  refine ⟨?_, ?_, ?_⟩
  · exact (listen_transitions chainSolver ⟨"stop", [], ""⟩ []).2.2.2.2.2.2.1 rfl
  · exact (listen_transitions chainSolver ⟨"merge", [1, 4], ""⟩ []).2.1 "KeyError" rfl
      (by decide)
  · exact (listen_transitions chainSolver ⟨"bogus", [], ""⟩ []).2.2.2.2.2.2.2 (by decide)

/-- Claim C8 counterexample: a `merge` message whose handler raises (the
disconnected selection `{1, 4}`) does not keep the session listening — the
loop terminates with the exception and the following `stop` message is
never processed, refuting the claimed self-loop on every `merge`. -/
theorem listen_merge_crash :
    (chainSolver.listen [⟨"merge", [1, 4], ""⟩, ⟨"stop", [], ""⟩]).err = some "KeyError" ∧
    (chainSolver.listen [⟨"merge", [1, 4], ""⟩, ⟨"stop", [], ""⟩]).remaining =
      [⟨"stop", [], ""⟩] ∧
    (chainSolver.listen [⟨"merge", [1, 4], ""⟩, ⟨"stop", [], ""⟩]).stopped = false := by
  decide

/-! ### The proofreading simulator -/

lemma mergeCount_append (a b : List Message) :
    mergeCount (a ++ b) = mergeCount a + mergeCount b := by
  simp [mergeCount, List.filter_append]

lemma mergeCount_op (frag truth : List Nat) (baseAdj : List (Nat × Nat)) (label : Nat) :
    mergeCount (proofreadOp frag truth baseAdj label) = 1 := by
  unfold proofreadOp mergeCount
  rw [List.filter_cons_of_pos (by simp)]
  have hsep : (((overlapComponents frag truth label).flatMap (fun fragment =>
      ((baseNeighbors baseAdj fragment).filter
        (fun nb => nb ∉ overlapComponents frag truth label)).map
        (fun nb => ({ type := "separate", segments := [fragment, nb] } : Message)))).filter
          (fun m => m.type = "merge")) = [] := by
    rw [List.filter_eq_nil_iff]
    intro m hm
    obtain ⟨fragment, _, hm2⟩ := List.mem_flatMap.mp hm
    obtain ⟨nb, _, rfl⟩ := List.mem_map.mp hm2
    simp
  rw [hsep]
  rfl

lemma mergeCount_ops (frag truth : List Nat) (baseAdj : List (Nat × Nat)) :
    ∀ l : List (Nat × Nat),
      mergeCount (l.flatMap (fun p => proofreadOp frag truth baseAdj p.2)) = l.length := by
  intro l
  induction l with
  | nil => rfl
  | cons p rest ih =>
    rw [List.flatMap_cons, mergeCount_append, mergeCount_op, ih]
    rw [List.length_cons]
    omega

/-- Claim C9: when `num_operations` exceeds the number of distinct
ground-truth labels, the simulator emits exactly one `merge` per available
label (zip-shortest semantics) and completes without error. -/
theorem proofread_zip_shortest (frag truth : List Nat) (baseAdj : List (Nat × Nat))
    (shuffled : List Nat) (num_operations : Nat) (stop_when_finished : Bool)
    (hperm : shuffled.Perm (uniqueLabels truth))
    (hexceed : (uniqueLabels truth).length < num_operations) :
    mergeCount (proofread frag truth baseAdj shuffled num_operations stop_when_finished) =
      (uniqueLabels truth).length := by
  unfold proofread
  rw [mergeCount_append, mergeCount_append, mergeCount_ops]
  have hreq : mergeCount [({ type := "request", what := "fragment-segment-lut" } : Message)]
      = 0 := by decide
  have hstop : mergeCount (if stop_when_finished then [({ type := "stop" } : Message)]
      else []) = 0 := by
    cases stop_when_finished <;> decide
  rw [hreq, hstop]
  have hlen : ((List.range num_operations).zip shuffled).length =
      min num_operations shuffled.length := by
    rw [List.length_zip, List.length_range]
  rw [hlen, hperm.length_eq]
  omega

/-- Witness for C9: two fragments, one true label, ten requested
operations: exactly one merge command is emitted. -/
theorem proofread_zip_shortest_witness :
    mergeCount (proofread [1, 1, 2, 2] [5, 5, 5, 5] [(1, 2)] [5] 10 false) = 1 :=
  proofread_zip_shortest [1, 1, 2, 2] [5, 5, 5, 5] [(1, 2)] [5] 10 false
    (by decide) (by decide)

/-- Witness for the amended C1 at the chain fixture: merging the
disconnected selection `{1, 2, 4}` raises and leaves the separation log
untouched. -/
theorem learn_merge_disconnected_witness :
    (chainSolver.learn_merge [1, 2, 4]).err = some "KeyError" ∧
    (chainSolver.learn_merge [1, 2, 4]).st.separate = chainSolver.separate := by
  obtain ⟨h1, _, _, _, h5⟩ := learn_merge_disconnected chainSolver [1, 2, 4] 1 [2, 4]
    (by decide) (by decide) (by decide)
  exact ⟨h1, h5⟩

/-- Witness for C3 at the chain fixture: merging the connected selection
`{1, 2, 3}` (k = 3) succeeds and appends two history entries. -/
theorem learn_merge_connected_chain_witness :
    (chainSolver.learn_merge [1, 2, 3]).err = none ∧
    (chainSolver.learn_merge [1, 2, 3]).st.history.length = 2 := by
  obtain ⟨h1, h2, _⟩ := learn_merge_connected_chain chainSolver [1, 2, 3] 3
    (by decide) (by decide) (by decide) (by decide) (by decide)
  exact ⟨h1, by simpa using h2⟩

/-- Witness for C10 at the chain fixture: merging `[2, 2]` (a singleton
resolved set) changes nothing. -/
theorem learn_merge_singleton_noop_witness :
    chainSolver.learn_merge [2, 2] = ⟨chainSolver, [], none⟩ :=
  learn_merge_singleton_noop chainSolver [2, 2] 2 (by decide) (by decide) (by decide)

end Gala
